import Mathlib

/-!
Shallow embedding of the collaborative technical-term store of the
RustoHebvera repository (src/technical_dictionary.rs and
src/knowledge_sharing.rs), together with proofs about its behaviour.

Modelling conventions:
* `HashMap<String, V>` is modelled as an association list
  `List (String × V)`; `insert` replaces any previous binding of the key,
  `get` is `lookupA`, `remove` is `mapRemove`.  A `HashMap` never holds
  two bindings of the same key, which appears as `Nodup` hypotheses on
  the key list where a theorem needs it.
* `HashSet<String>` is modelled as a `List String` used up to membership.
* `VecDeque<T>` is modelled as a `List T` whose head is the front.
* `chrono::DateTime<Utc>` is modelled as `Int` (a time-stamp in seconds);
  `chrono::Duration::minutes m` is `m * 60`.  Every Rust function that
  internally calls `Utc::now()` receives the current instant as an extra
  `now : Int` argument.
* `str::to_lowercase` is modelled by a per-character simple lowercase map
  covering the ASCII and Cyrillic letter ranges (the alphabets this
  repository uses); Hebrew has no letter case.
* `anyhow::Result` can fail only in the file-system persistence step
  (`save`), which has no observable effect on the in-memory state; the
  model therefore omits the file write and returns the new state
  directly.  None of the modelled functions has any other error path.
-/

namespace RustoHebvera

/-- Lookup in an association list modelling `HashMap::get`. -/
def lookupA {α : Type} : List (String × α) → String → Option α
  | [], _ => none
  | (k', v) :: rest, k => if k' = k then some v else lookupA rest k

/-- `HashMap::insert`: replace any existing binding of the key. -/
def mapInsert {α : Type} (m : List (String × α)) (k : String) (v : α) :
    List (String × α) :=
  (k, v) :: m.filter (fun p => !decide (p.1 = k))

/-- `HashMap::remove`. -/
def mapRemove {α : Type} (m : List (String × α)) (k : String) :
    List (String × α) :=
  m.filter (fun p => !decide (p.1 = k))

/-- Simple one-character lowercase map: ASCII `A`-`Z` and Cyrillic
`А`-`Я` (U+0410–U+042F) plus `Ё`; models `char` lowercasing for the
alphabets used by this repository. -/
def char_to_lowercase (c : Char) : Char :=
  if 65 ≤ c.toNat ∧ c.toNat ≤ 90 then Char.ofNat (c.toNat + 32)
  else if 0x410 ≤ c.toNat ∧ c.toNat ≤ 0x42F then Char.ofNat (c.toNat + 32)
  else if c.toNat = 0x401 then Char.ofNat 0x451
  else c

/-- Models `str::to_lowercase`. -/
def to_lowercase (s : String) : String :=
  ⟨s.data.map char_to_lowercase⟩

/-- `startsWith pat s` holds when `pat` is an initial segment of `s`. -/
def startsWith : List Char → List Char → Bool
  | [], _ => true
  | _ :: _, [] => false
  | p :: ps, c :: cs => decide (p = c) && startsWith ps cs

/-- `containsSub pat s` models `str::contains`: `pat` occurs as a
contiguous substring of `s`. -/
def containsSub : List Char → List Char → Bool
  | pat, [] => startsWith pat []
  | pat, c :: t => startsWith pat (c :: t) || containsSub pat t

/-- Models `String::contains` on the underlying character data. -/
def str_contains (s pat : String) : Bool :=
  containsSub pat.data s.data

/-- `TechnicalTerm` (src/technical_dictionary.rs). -/
structure TechnicalTerm where
  hebrew : String
  russian : String
  context : Option String
  category : Option String
  notes : Option String
  synonyms_he : List String
  synonyms_ru : List String
  usage_examples : List String
  tags : List String
  last_updated : Int
  deriving DecidableEq, Repr

/-- `SearchQuery` (src/technical_dictionary.rs). -/
structure SearchQuery where
  text : String
  lang : String
  categories : Option (List String)
  contexts : Option (List String)
  tags : Option (List String)
  include_synonyms : Bool
  exact_match : Bool
  deriving DecidableEq, Repr

/-- `TechnicalDictionary` (src/technical_dictionary.rs).  The three
index fields map a category / context / tag to the set of hebrew keys. -/
structure TechnicalDictionary where
  terms : List (String × TechnicalTerm)
  file_path : String
  category_index : List (String × List String)
  context_index : List (String × List String)
  tag_index : List (String × List String)
  deriving DecidableEq, Repr

/-- `entry(key).or_default().insert(val)` on an index map. -/
def indexAdd (idx : List (String × List String)) (key val : String) :
    List (String × List String) :=
  match lookupA idx key with
  | some s => mapInsert idx key (if val ∈ s then s else val :: s)
  | none => mapInsert idx key [val]

/-- The loop body of `rebuild_indices` for one `(term_key, term)` entry:
insert the key under the term's category, context, and each tag. -/
def rebuildStep
    (acc : List (String × List String) × List (String × List String) ×
      List (String × List String))
    (kt : String × TechnicalTerm) :
    List (String × List String) × List (String × List String) ×
      List (String × List String) :=
  let ci := match kt.2.category with
    | some category => indexAdd acc.1 category kt.1
    | none => acc.1
  let xi := match kt.2.context with
    | some context => indexAdd acc.2.1 context kt.1
    | none => acc.2.1
  let ti := kt.2.tags.foldl (fun ti tag => indexAdd ti tag kt.1) acc.2.2
  (ci, xi, ti)

/-- `rebuild_indices`: one pass over the term map building the category,
context and tag indices (in that order in the result triple). -/
def rebuild_indices (terms : List (String × TechnicalTerm)) :
    List (String × List String) × List (String × List String) ×
      List (String × List String) :=
  terms.foldl rebuildStep ([], [], [])

/-- `TechnicalDictionary::new`: the term map is whatever was
deserialized from the persistence file (or empty), and the indices are
rebuilt from it. -/
def TechnicalDictionary.new (terms0 : List (String × TechnicalTerm))
    (file_path : String) : TechnicalDictionary :=
  { terms := terms0
    file_path := file_path
    category_index := (rebuild_indices terms0).1
    context_index := (rebuild_indices terms0).2.1
    tag_index := (rebuild_indices terms0).2.2 }

/-- `add_term`: stamp `last_updated`, insert under the hebrew key,
rebuild the indices (and persist, which the model omits). -/
def add_term (d : TechnicalDictionary) (term : TechnicalTerm) (now : Int) :
    TechnicalDictionary :=
  let term := { term with last_updated := now }
  let terms := mapInsert d.terms term.hebrew term
  { d with
    terms := terms
    category_index := (rebuild_indices terms).1
    context_index := (rebuild_indices terms).2.1
    tag_index := (rebuild_indices terms).2.2 }

/-- `update_term`: if the key is present, replace the stored term
in place (stamping `last_updated`) and rebuild the indices; an unknown
key is a silent no-op. -/
def update_term (d : TechnicalDictionary) (hebrew : String)
    (updates : TechnicalTerm) (now : Int) : TechnicalDictionary :=
  match lookupA d.terms hebrew with
  | none => d
  | some _ =>
    let updates := { updates with last_updated := now }
    let terms := d.terms.map
      (fun p => if p.1 = hebrew then (p.1, updates) else p)
    { d with
      terms := terms
      category_index := (rebuild_indices terms).1
      context_index := (rebuild_indices terms).2.1
      tag_index := (rebuild_indices terms).2.2 }

/-- `delete_term`: remove the key (a no-op when absent) and rebuild. -/
def delete_term (d : TechnicalDictionary) (hebrew : String) :
    TechnicalDictionary :=
  let terms := mapRemove d.terms hebrew
  { d with
    terms := terms
    category_index := (rebuild_indices terms).1
    context_index := (rebuild_indices terms).2.1
    tag_index := (rebuild_indices terms).2.2 }

/-- The one-field text test of `search`: lowercased equality in
exact-match mode, lowercased substring containment otherwise.  (The
source hoists `to_lowercase query.text` into a local `search_text`;
the value is the same.) -/
def fieldMatchB (query : SearchQuery) (field0 : String) : Bool :=
  if query.exact_match then
    decide (to_lowercase field0 = to_lowercase query.text)
  else str_contains (to_lowercase field0) (to_lowercase query.text)

/-- The per-term text-match test of `search` (the body of the first
loop): primary-field match and, when `include_synonyms`, synonym match;
a language other than `"he"`/`"ru"` skips the term (`continue`). -/
def shouldInclude (query : SearchQuery) (term : TechnicalTerm) : Bool :=
  let primary : Option String :=
    if query.lang = "he" then some term.hebrew
    else if query.lang = "ru" then some term.russian
    else none
  match primary with
  | none => false
  | some term_text =>
    let base := fieldMatchB query term_text
    if query.include_synonyms then
      let synonyms :=
        if query.lang = "he" then term.synonyms_he else term.synonyms_ru
      base || synonyms.any (fun s => fieldMatchB query s)
    else base

/-- The category retain-filter of `search`. -/
def categoryFilter (query : SearchQuery) (term : TechnicalTerm) : Bool :=
  match query.categories with
  | some categories =>
    match term.category with
    | some term_category => decide (term_category ∈ categories)
    | none => false
  | none => true

/-- The context retain-filter of `search`. -/
def contextFilter (query : SearchQuery) (term : TechnicalTerm) : Bool :=
  match query.contexts with
  | some contexts =>
    match term.context with
    | some term_context => decide (term_context ∈ contexts)
    | none => false
  | none => true

/-- The tag retain-filter of `search` (the term's tags must contain
every requested tag). -/
def tagFilter (query : SearchQuery) (term : TechnicalTerm) : Bool :=
  match query.tags with
  | some tags => tags.all (fun tag => decide (tag ∈ term.tags))
  | none => true

/-- Lexicographic order on character lists, by code point; models the
byte-lexicographic `Ord` of Rust strings (for valid UTF-8 the two
orders agree). -/
def lexLe : List Char → List Char → Bool
  | [], _ => true
  | _ :: _, [] => false
  | c :: cs, d :: ds =>
    if c.toNat < d.toNat then true
    else if d.toNat < c.toNat then false
    else lexLe cs ds

/-- The comparator of the final `sort_by` of `search`:
`a.hebrew.cmp(&b.hebrew)`. -/
def hebrewLe (a b : TechnicalTerm) : Bool :=
  lexLe a.hebrew.data b.hebrew.data

/-- Insert into a list sorted by `hebrewLe` (helper of the stable sort
modelling `sort_by`). -/
def insertSorted (a : TechnicalTerm) :
    List TechnicalTerm → List TechnicalTerm
  | [] => [a]
  | b :: l => if hebrewLe a b then a :: b :: l else b :: insertSorted a l

/-- Stable insertion sort by the hebrew field; models the
`sort_by(|a, b| a.hebrew.cmp(&b.hebrew))` call of `search`. -/
def sortByHebrew : List TechnicalTerm → List TechnicalTerm
  | [] => []
  | a :: l => insertSorted a (sortByHebrew l)

/-- `search`: collect the matching values into a set (`dedup`), apply
the three retain-filters, and sort by the hebrew field. -/
def search (d : TechnicalDictionary) (query : SearchQuery) :
    List TechnicalTerm :=
  sortByHebrew ((((((d.terms.map Prod.snd).filter
    (shouldInclude query)).dedup).filter
    (categoryFilter query)).filter (contextFilter query)).filter
    (tagFilter query))

/-- `get_all_terms_map`: a clone of the term map. -/
def get_all_terms_map (d : TechnicalDictionary) :
    List (String × TechnicalTerm) :=
  d.terms

/-- `get_all_tags_set`: the union of the tag sets of all terms. -/
def get_all_tags_set (d : TechnicalDictionary) : List String :=
  d.terms.foldl (fun acc kt => acc ++ kt.2.tags) []

/-- `chrono::Duration::minutes`. -/
def minutes (m : Int) : Int := m * 60

/-- `DictionaryVersion` (src/knowledge_sharing.rs). -/
structure DictionaryVersion where
  version_id : String
  created_at : Int
  created_by : String
  description : String
  terms : List (String × TechnicalTerm)
  tags : List String
  deriving DecidableEq, Repr

/-- `DictionaryMergeReport` (src/knowledge_sharing.rs). -/
structure DictionaryMergeReport where
  added_terms : List TechnicalTerm
  updated_terms : List TechnicalTerm
  conflicting_terms : List (TechnicalTerm × TechnicalTerm)
  timestamp : Int
  deriving DecidableEq, Repr

/-- `ChangeType` (src/knowledge_sharing.rs). -/
inductive ChangeType where
  | Addition
  | Modification
  | Deletion
  deriving DecidableEq, Repr

/-- `TermChange` (src/knowledge_sharing.rs). -/
structure TermChange where
  timestamp : Int
  changed_by : String
  change_type : ChangeType
  old_value : Option String
  new_value : Option String
  field : String
  deriving DecidableEq, Repr

/-- `TermChangeHistory` (src/knowledge_sharing.rs). -/
structure TermChangeHistory where
  term_id : String
  changes : List TermChange
  deriving DecidableEq, Repr

/-- `CollaboratorRole` (src/knowledge_sharing.rs). -/
inductive CollaboratorRole where
  | Admin
  | Editor
  | Reviewer
  | Viewer
  deriving DecidableEq, Repr

/-- `ActivityType` (src/knowledge_sharing.rs). -/
inductive ActivityType where
  | Editing
  | Reviewing
  | Comparing
  | Exporting
  deriving DecidableEq, Repr

/-- `ActivityStatus` (src/knowledge_sharing.rs). -/
inductive ActivityStatus where
  | InProgress
  | Pending
  | Completed
  | Failed (reason : String)
  deriving DecidableEq, Repr

/-- `CollaboratorActivity` (src/knowledge_sharing.rs). -/
structure CollaboratorActivity where
  activity_type : ActivityType
  term_id : Option String
  started_at : Int
  status : ActivityStatus
  deriving DecidableEq, Repr

/-- `CollaboratorInfo` (src/knowledge_sharing.rs); `edit_history` is the
collaborator's personal bounded buffer of own changes. -/
structure CollaboratorInfo where
  user_id : String
  name : String
  role : CollaboratorRole
  last_active : Int
  current_activity : Option CollaboratorActivity
  edit_history : List TermChange
  deriving DecidableEq, Repr

/-- `EditLock` (src/knowledge_sharing.rs). -/
structure EditLock where
  term_id : String
  locked_by : String
  locked_at : Int
  expires_at : Int
  deriving DecidableEq, Repr

/-- `ReviewStatus` (src/knowledge_sharing.rs). -/
inductive ReviewStatus where
  | Pending
  | InReview
  | Approved
  | Rejected
  | NeedsChanges
  deriving DecidableEq, Repr

/-- `ReviewComment` (src/knowledge_sharing.rs). -/
structure ReviewComment where
  author : String
  timestamp : Int
  content : String
  field : Option String
  deriving DecidableEq, Repr

/-- `ReviewRequest` (src/knowledge_sharing.rs). -/
structure ReviewRequest where
  request_id : String
  term_id : String
  requested_by : String
  requested_at : Int
  reviewers : List String
  status : ReviewStatus
  comments : List ReviewComment
  deriving DecidableEq, Repr

/-- `ResolutionType` (src/knowledge_sharing.rs). -/
inductive ResolutionType where
  | KeepBase
  | AcceptChanges
  | Merge
  | Custom
  deriving DecidableEq, Repr

/-- `ConflictResolution` (src/knowledge_sharing.rs). -/
structure ConflictResolution where
  term_id : String
  resolved_by : String
  timestamp : Int
  resolution_type : ResolutionType
  comments : String
  deriving DecidableEq, Repr

/-- `KnowledgeManager` (src/knowledge_sharing.rs).  `activity_log` is
the global activity ring buffer, newest entry first. -/
structure KnowledgeManager where
  versions : List (String × DictionaryVersion)
  change_history : List (String × TermChangeHistory)
  collaborators : List (String × CollaboratorInfo)
  edit_locks : List (String × EditLock)
  review_requests : List (String × ReviewRequest)
  conflict_resolutions : List ConflictResolution
  last_sync : Int
  activity_log : List CollaboratorActivity
  deriving DecidableEq, Repr

/-- `KnowledgeManager::new`. -/
def KnowledgeManager.new (now : Int) : KnowledgeManager :=
  { versions := []
    change_history := []
    collaborators := []
    edit_locks := []
    review_requests := []
    conflict_resolutions := []
    last_sync := now
    activity_log := [] }

/-- `create_version`: unconditionally insert a snapshot of the
dictionary's term map and tag set under `version_id`. -/
def create_version (m : KnowledgeManager) (dictionary : TechnicalDictionary)
    (version_id created_by description : String) (now : Int) :
    KnowledgeManager :=
  let version : DictionaryVersion :=
    { version_id := version_id
      created_at := now
      created_by := created_by
      description := description
      terms := get_all_terms_map dictionary
      tags := get_all_tags_set dictionary }
  { m with versions := mapInsert m.versions version_id version }

/-- The body of the first loop of `compare_versions` (over the terms of
the second version): collect added and updated terms. -/
def compareStep1 (v1 : DictionaryVersion) (r : DictionaryMergeReport)
    (kt : String × TechnicalTerm) : DictionaryMergeReport :=
  match lookupA v1.terms kt.1 with
  | some term_v1 =>
    if term_v1 ≠ kt.2 then
      { r with updated_terms := r.updated_terms ++ [kt.2] }
    else r
  | none => { r with added_terms := r.added_terms ++ [kt.2] }

/-- The body of the second loop of `compare_versions` (over the terms of
the first version): collect conflicting pairs. -/
def compareStep2 (v2 : DictionaryVersion) (r : DictionaryMergeReport)
    (kt : String × TechnicalTerm) : DictionaryMergeReport :=
  match lookupA v2.terms kt.1 with
  | some term_v2 =>
    if kt.2.last_updated = term_v2.last_updated ∧ kt.2 ≠ term_v2 then
      { r with conflicting_terms := r.conflicting_terms ++ [(kt.2, term_v2)] }
    else r
  | none => r

/-- `compare_versions`: `none` when either version id is unknown. -/
def compare_versions (m : KnowledgeManager) (version1_id version2_id : String)
    (now : Int) : Option DictionaryMergeReport :=
  match lookupA m.versions version1_id, lookupA m.versions version2_id with
  | some v1, some v2 =>
    let report : DictionaryMergeReport :=
      { added_terms := []
        updated_terms := []
        conflicting_terms := []
        timestamp := now }
    let report := v2.terms.foldl (compareStep1 v1) report
    let report := v1.terms.foldl (compareStep2 v2) report
    some report
  | _, _ => none

/-- `add_collaborator`. -/
def add_collaborator (m : KnowledgeManager) (user_id name : String)
    (role : CollaboratorRole) (now : Int) : KnowledgeManager :=
  let collaborator : CollaboratorInfo :=
    { user_id := user_id
      name := name
      role := role
      last_active := now
      current_activity := none
      edit_history := [] }
  { m with collaborators := mapInsert m.collaborators user_id collaborator }

/-- `update_collaborator_activity` (the spec calls it
`record_activity`): for a registered collaborator, stamp `last_active`,
set `current_activity`, push the activity on the front of the global
log and evict the back entry once the length exceeds 1000; for an
unknown user the whole call is a no-op.  The collaborator's personal
`edit_history` buffer is not touched. -/
def update_collaborator_activity (m : KnowledgeManager) (user_id : String)
    (activity : CollaboratorActivity) (now : Int) : KnowledgeManager :=
  match lookupA m.collaborators user_id with
  | none => m
  | some collaborator =>
    let collaborator :=
      { collaborator with
        last_active := now
        current_activity := some activity }
    let log := activity :: m.activity_log
    let log := if log.length > 1000 then log.dropLast else log
    { m with
      collaborators := m.collaborators.map
        (fun p => if p.1 = user_id then (p.1, collaborator) else p)
      activity_log := log }

/-- `acquire_edit_lock`: fail iff an unexpired lock on the term exists
(whoever holds it); otherwise install a fresh lock for `user_id` with a
30-minute TTL. -/
def acquire_edit_lock (m : KnowledgeManager) (term_id user_id : String)
    (now : Int) : KnowledgeManager × Bool :=
  let locked := match lookupA m.edit_locks term_id with
    | some lock => decide (lock.expires_at > now)
    | none => false
  if locked then (m, false)
  else
    let lock : EditLock :=
      { term_id := term_id
        locked_by := user_id
        locked_at := now
        expires_at := now + minutes 30 }
    ({ m with edit_locks := mapInsert m.edit_locks term_id lock }, true)

/-- `release_edit_lock`: remove the stored lock iff its holder equals
the caller; expiry is not consulted. -/
def release_edit_lock (m : KnowledgeManager) (term_id user_id : String) :
    KnowledgeManager × Bool :=
  match lookupA m.edit_locks term_id with
  | some lock =>
    if lock.locked_by = user_id then
      ({ m with edit_locks := mapRemove m.edit_locks term_id }, true)
    else (m, false)
  | none => (m, false)

/-- The per-lock test of `get_edit_conflicts`: strictly more than one
global-log entry of kind `Editing` targets the lock's term and started
within the last 30 minutes. -/
def conflictTest (m : KnowledgeManager) (now : Int) (lock : EditLock) :
    Bool :=
  m.activity_log.countP (fun a =>
    decide (a.activity_type = ActivityType.Editing ∧
      a.term_id = some lock.term_id ∧
      a.started_at > now - minutes 30)) > 1

/-- `get_edit_conflicts`: the lock-map entries passing `conflictTest`,
independent of lock expiry. -/
def get_edit_conflicts (m : KnowledgeManager) (now : Int) :
    List (String × EditLock) :=
  m.edit_locks.filter (fun p => conflictTest m now p.2)

/-- Membership in a derived index: `member` belongs to the set the
index stores under `key`. -/
def inIndex (idx : List (String × List String)) (key member : String) :
    Prop :=
  ∃ s, lookupA idx key = some s ∧ member ∈ s

/-- The derived-index consistency invariant of the spec: each of the
three indices maps each key to exactly the set of hebrew keys whose
stored term satisfies the corresponding predicate. -/
def ConsistentDict (d : TechnicalDictionary) : Prop :=
  (∀ c k, inIndex d.category_index c k ↔
    ∃ t, lookupA d.terms k = some t ∧ t.category = some c) ∧
  (∀ x k, inIndex d.context_index x k ↔
    ∃ t, lookupA d.terms k = some t ∧ t.context = some x) ∧
  (∀ tg k, inIndex d.tag_index tg k ↔
    ∃ t, lookupA d.terms k = some t ∧ tg ∈ t.tags)

/-- Dictionary states reachable by a sequence of `add_term` /
`update_term` / `delete_term` calls from a freshly loaded dictionary
(whose deserialized `HashMap` has no duplicate keys). -/
inductive ReachableDict : TechnicalDictionary → Prop where
  | new (terms0 : List (String × TechnicalTerm)) (file_path : String)
      (h : (terms0.map Prod.fst).Nodup) :
      ReachableDict (TechnicalDictionary.new terms0 file_path)
  | add (d : TechnicalDictionary) (term : TechnicalTerm) (now : Int) :
      ReachableDict d → ReachableDict (add_term d term now)
  | update (d : TechnicalDictionary) (hebrew : String)
      (updates : TechnicalTerm) (now : Int) :
      ReachableDict d → ReachableDict (update_term d hebrew updates now)
  | delete (d : TechnicalDictionary) (hebrew : String) :
      ReachableDict d → ReachableDict (delete_term d hebrew)

/-- The internal well-formedness of a dictionary state: `HashMap` keys
are unique and the three stored indices are exactly the rebuilt ones. -/
def DictInvariant (d : TechnicalDictionary) : Prop :=
  (d.terms.map Prod.fst).Nodup ∧
  d.category_index = (rebuild_indices d.terms).1 ∧
  d.context_index = (rebuild_indices d.terms).2.1 ∧
  d.tag_index = (rebuild_indices d.terms).2.2

/-- The claim's wording of the text-match rule of `search`, corrected
for case: the primary field for the query language (or, when
`include_synonyms`, any synonym entry) equals the query text in
exact-match mode, or contains it as a substring otherwise, after both
sides are lowercased. -/
def specTextMatch (query : SearchQuery) (term : TechnicalTerm) : Prop :=
  ∃ primary synonyms,
    ((query.lang = "he" ∧ primary = term.hebrew ∧
        synonyms = term.synonyms_he) ∨
      (query.lang = "ru" ∧ primary = term.russian ∧
        synonyms = term.synonyms_ru)) ∧
    (specFieldMatch query primary ∨
      (query.include_synonyms = true ∧ ∃ s ∈ synonyms, specFieldMatch query s))
where
  /-- One field matches the query text. -/
  specFieldMatch (query : SearchQuery) (field0 : String) : Prop :=
    if query.exact_match then
      to_lowercase field0 = to_lowercase query.text
    else
      ∃ l r, (to_lowercase field0).data =
        l ++ (to_lowercase query.text).data ++ r

/-- The claim's wording of the three retain-filters of `search`:
category inclusion, context inclusion, and tag-superset (AND). -/
def specFilters (query : SearchQuery) (term : TechnicalTerm) : Prop :=
  (∀ categories, query.categories = some categories →
    ∃ c, term.category = some c ∧ c ∈ categories) ∧
  (∀ contexts, query.contexts = some contexts →
    ∃ x, term.context = some x ∧ x ∈ contexts) ∧
  (∀ tags, query.tags = some tags → ∀ tag ∈ tags, tag ∈ term.tags)

/-- A sample term used by concrete witnesses. -/
def sampleTerm : TechnicalTerm :=
  { hebrew := "ברז"
    russian := "kran"
    context := some "צנרת"
    category := some "אינסטלציה"
    notes := none
    synonyms_he := ["ברז מים"]
    synonyms_ru := ["ventil"]
    usage_examples := []
    tags := ["מים", "צנרת"]
    last_updated := 0 }

/-- A second sample term (no category, no context). -/
def sampleTerm2 : TechnicalTerm :=
  { hebrew := "שסתום"
    russian := "klapan"
    context := none
    category := none
    notes := none
    synonyms_he := []
    synonyms_ru := []
    usage_examples := []
    tags := []
    last_updated := 0 }

/-- A sample dictionary holding `sampleTerm` (reachable: built by one
`add_term` on a fresh empty dictionary). -/
def sampleDict : TechnicalDictionary :=
  add_term (TechnicalDictionary.new [] "dict.json") sampleTerm 5

/-- A sample activity used by concrete witnesses. -/
def sampleActivity : CollaboratorActivity :=
  { activity_type := ActivityType.Editing
    term_id := some "ברז"
    started_at := 10
    status := ActivityStatus.InProgress }

/-- A sample manager with one registered collaborator `"alice"` and one
lock on `"ברז"` held by `"alice"` that expires at time 1800. -/
def sampleManager : KnowledgeManager :=
  (acquire_edit_lock
    (add_collaborator (KnowledgeManager.new 0) "alice" "Alice"
      CollaboratorRole.Editor 0)
    "ברז" "alice" 0).1

/-- The version record that `create_version` stores. -/
def snapshotOf (dictionary : TechnicalDictionary)
    (version_id created_by description : String) (now : Int) :
    DictionaryVersion :=
  { version_id := version_id
    created_at := now
    created_by := created_by
    description := description
    terms := get_all_terms_map dictionary
    tags := get_all_tags_set dictionary }

/-- The collaborator record registered for `"alice"` in `sampleManager`. -/
def aliceInfo : CollaboratorInfo :=
  { user_id := "alice"
    name := "Alice"
    role := CollaboratorRole.Editor
    last_active := 0
    current_activity := none
    edit_history := [] }

/-- The lock that a successful `acquire_edit_lock` call installs. -/
def freshLock (term_id user_id : String) (now : Int) : EditLock :=
  { term_id := term_id
    locked_by := user_id
    locked_at := now
    expires_at := now + minutes 30 }

/-- A lock held by `"A"` on `"t1"` that expired at time 10. -/
def expiredLock : EditLock :=
  { term_id := "t1", locked_by := "A", locked_at := 0, expires_at := 10 }

/-- A manager whose only lock is the expired `expiredLock`. -/
def expiredLockManager : KnowledgeManager :=
  { KnowledgeManager.new 0 with edit_locks := [("t1", expiredLock)] }

/-- The stored form of `sampleTerm` inside `sampleDict`
(`add_term` stamps `last_updated`). -/
def sampleTermStored : TechnicalTerm :=
  { sampleTerm with last_updated := 5 }

/-- A manager holding one snapshot `"v1"` of `sampleDict`. -/
def versionedManager : KnowledgeManager :=
  create_version (KnowledgeManager.new 0) sampleDict "v1" "alice" "first" 10

/-- `sampleDict` with `sampleTerm2` added. -/
def dictB : TechnicalDictionary :=
  add_term sampleDict sampleTerm2 8

/-- A manager holding snapshots `"vA"` of `sampleDict` and `"vB"` of
`dictB`. -/
def compareManager : KnowledgeManager :=
  create_version
    (create_version (KnowledgeManager.new 0) sampleDict "vA" "alice" "a" 10)
    dictB "vB" "bob" "b" 20

/-- The snapshot stored under `"vA"` in `compareManager`. -/
def versionA : DictionaryVersion :=
  { version_id := "vA"
    created_at := 10
    created_by := "alice"
    description := "a"
    terms := sampleDict.terms
    tags := get_all_tags_set sampleDict }

/-- The snapshot stored under `"vB"` in `compareManager`. -/
def versionB : DictionaryVersion :=
  { version_id := "vB"
    created_at := 20
    created_by := "bob"
    description := "b"
    terms := dictB.terms
    tags := get_all_tags_set dictB }

/-- A term whose russian field is lower-case. -/
def caseTerm : TechnicalTerm :=
  { hebrew := "צינור"
    russian := "truba"
    context := none
    category := none
    notes := none
    synonyms_he := []
    synonyms_ru := []
    usage_examples := []
    tags := []
    last_updated := 0 }

/-- The stored form of `caseTerm` after `add_term` at time 5. -/
def caseStored : TechnicalTerm :=
  { caseTerm with last_updated := 5 }

/-- A dictionary holding only `caseTerm`. -/
def caseDict : TechnicalDictionary :=
  add_term (TechnicalDictionary.new [] "dict.json") caseTerm 5

/-- An exact-match russian query whose text differs from the stored
field only in letter case. -/
def caseQuery : SearchQuery :=
  { text := "TRUBA"
    lang := "ru"
    categories := none
    contexts := none
    tags := none
    include_synonyms := false
    exact_match := true }

/-! ### Association-list lemmas -/

theorem lookupA_filter_ne {α : Type} (m : List (String × α)) (k k' : String)
    (h : k ≠ k') :
    lookupA (m.filter (fun p => !decide (p.1 = k))) k' = lookupA m k' := by
  induction m with
  | nil => rfl
  | cons p rest ih =>
    obtain ⟨k0, v0⟩ := p
    rw [List.filter_cons]
    by_cases hp : k0 = k
    · have hk' : k0 ≠ k' := by rw [hp]; exact h
      rw [if_neg (by simp [hp]), ih, lookupA, if_neg hk']
    · rw [if_pos (by simp [hp]), lookupA, lookupA]
      by_cases hk : k0 = k' <;> simp [hk, ih]

theorem lookupA_mapInsert {α : Type} (m : List (String × α))
    (k k' : String) (v : α) :
    lookupA (mapInsert m k v) k' =
      if k = k' then some v else lookupA m k' := by
  show lookupA ((k, v) :: _) k' = _
  rw [lookupA]
  by_cases h : k = k'
  · rw [if_pos h, if_pos h]
  · rw [if_neg h, if_neg h, lookupA_filter_ne m k k' h]

theorem lookupA_mapRemove {α : Type} (m : List (String × α))
    (k k' : String) :
    lookupA (mapRemove m k) k' =
      if k = k' then none else lookupA m k' := by
  by_cases h : k = k'
  · subst h
    rw [if_pos rfl]
    show lookupA (m.filter fun p => !decide (p.1 = k)) k = none
    induction m with
    | nil => rfl
    | cons p rest ih =>
      rw [List.filter_cons]
      by_cases hp : p.1 = k
      · rw [if_neg (by simp [hp])]
        exact ih
      · rw [if_pos (by simp [hp])]
        show lookupA ((p.1, p.2) :: _) k = none
        rw [lookupA, if_neg hp]
        exact ih
  · rw [if_neg h]
    exact lookupA_filter_ne m k k' h

theorem lookupA_eq_some_iff {α : Type} {m : List (String × α)}
    (h : (m.map Prod.fst).Nodup) (k : String) (v : α) :
    lookupA m k = some v ↔ (k, v) ∈ m := by
  induction m with
  | nil => simp [lookupA]
  | cons p rest ih =>
    obtain ⟨k0, v0⟩ := p
    simp only [List.map_cons, List.nodup_cons, List.mem_map] at h
    obtain ⟨hk0, hrest⟩ := h
    by_cases hp : k0 = k
    · subst hp
      rw [lookupA, if_pos rfl, List.mem_cons]
      constructor
      · rintro h
        injection h with h
        exact Or.inl (by rw [h])
      · rintro (h | hmem)
        · injection h with h1 h2
          rw [h2]
        · exact absurd ⟨(k0, v), hmem, rfl⟩ hk0
    · rw [lookupA, if_neg hp, ih hrest, List.mem_cons]
      constructor
      · exact Or.inr
      · rintro (h | hmem)
        · injection h with h1 _
          exact absurd h1.symm hp
        · exact hmem

theorem lookupA_eq_none_iff {α : Type} (m : List (String × α)) (k : String) :
    lookupA m k = none ↔ ∀ v, (k, v) ∉ m := by
  induction m with
  | nil => simp [lookupA]
  | cons p rest ih =>
    obtain ⟨k0, v0⟩ := p
    by_cases hp : k0 = k
    · subst hp
      simp only [lookupA, if_pos rfl]
      constructor
      · rintro h
        exact absurd h (by simp)
      · intro h
        exact absurd (h v0 (by simp)) (by simp)
    · rw [lookupA, if_neg hp, ih]
      constructor
      · intro h v
        rw [List.mem_cons]
        rintro (heq | hmem)
        · injection heq with h1 _
          exact hp h1.symm
        · exact h v hmem
      · intro h v hmem
        exact h v (List.mem_cons_of_mem _ hmem)

theorem keys_nodup_filter {α : Type} {m : List (String × α)}
    (h : (m.map Prod.fst).Nodup) (k : String) :
    ((m.filter (fun p => !decide (p.1 = k))).map Prod.fst).Nodup := by
  induction m with
  | nil => simp
  | cons p rest ih =>
    simp only [List.map_cons, List.nodup_cons] at h
    rw [List.filter_cons]
    by_cases hp : p.1 = k
    · rw [if_neg (by simp [hp])]
      exact ih h.2
    · rw [if_pos (by simp [hp]), List.map_cons, List.nodup_cons]
      refine ⟨fun hmem => ?_, ih h.2⟩
      simp only [List.mem_map, List.mem_filter] at hmem
      obtain ⟨q, ⟨hq, _⟩, hfst⟩ := hmem
      exact h.1 (hfst ▸ List.mem_map_of_mem Prod.fst hq)

theorem keys_nodup_mapInsert {α : Type} {m : List (String × α)}
    (h : (m.map Prod.fst).Nodup) (k : String) (v : α) :
    ((mapInsert m k v).map Prod.fst).Nodup := by
  rw [mapInsert, List.map_cons, List.nodup_cons]
  refine ⟨fun hmem => ?_, keys_nodup_filter h k⟩
  simp only [List.mem_map, List.mem_filter, Bool.not_eq_true',
    decide_eq_false_iff_not] at hmem
  obtain ⟨p, ⟨_, hne⟩, hfst⟩ := hmem
  exact hne hfst

theorem keys_nodup_mapRemove {α : Type} {m : List (String × α)}
    (h : (m.map Prod.fst).Nodup) (k : String) :
    ((mapRemove m k).map Prod.fst).Nodup :=
  keys_nodup_filter h k

/-! ### Derived-index lemmas -/

theorem inIndex_nil (c k : String) : ¬ inIndex [] c k := by
  rintro ⟨s, hs, _⟩
  simp [lookupA] at hs

theorem inIndex_lookup_some {idx : List (String × List String)}
    {c : String} {s : List String} (hl : lookupA idx c = some s)
    (k : String) : inIndex idx c k ↔ k ∈ s := by
  unfold inIndex
  rw [hl]
  constructor
  · rintro ⟨s', hs', hk⟩
    injection hs' with hs'
    exact hs' ▸ hk
  · intro hk
    exact ⟨s, rfl, hk⟩

theorem inIndex_lookup_none {idx : List (String × List String)}
    {c : String} (hl : lookupA idx c = none) (k : String) :
    ¬ inIndex idx c k := by
  rintro ⟨s', hs', _⟩
  rw [hl] at hs'
  exact absurd hs' (by simp)

theorem indexAdd_eq_of_some (idx : List (String × List String))
    (key val : String) {s : List String} (hl : lookupA idx key = some s) :
    indexAdd idx key val =
      mapInsert idx key (if val ∈ s then s else val :: s) := by
  unfold indexAdd
  rw [hl]

theorem indexAdd_eq_of_none (idx : List (String × List String))
    (key val : String) (hl : lookupA idx key = none) :
    indexAdd idx key val = mapInsert idx key [val] := by
  unfold indexAdd
  rw [hl]

theorem inIndex_mapInsert (idx : List (String × List String))
    (key : String) (s : List String) (c k : String) :
    inIndex (mapInsert idx key s) c k ↔
      if key = c then k ∈ s else inIndex idx c k := by
  by_cases hc : key = c
  · rw [if_pos hc]
    exact inIndex_lookup_some (by rw [lookupA_mapInsert, if_pos hc]) k
  · rw [if_neg hc]
    unfold inIndex
    rw [lookupA_mapInsert, if_neg hc]

theorem inIndex_indexAdd (idx : List (String × List String))
    (key val c k : String) :
    inIndex (indexAdd idx key val) c k ↔
      inIndex idx c k ∨ (c = key ∧ k = val) := by
  cases hl : lookupA idx key with
  | some s =>
    rw [indexAdd_eq_of_some idx key val hl, inIndex_mapInsert]
    by_cases hc : key = c
    · rw [if_pos hc]
      subst hc
      rw [inIndex_lookup_some hl k]
      by_cases hv : val ∈ s
      · rw [if_pos hv]
        constructor
        · exact Or.inl
        · rintro (hk | ⟨_, hk⟩)
          · exact hk
          · exact hk ▸ hv
      · rw [if_neg hv, List.mem_cons]
        constructor
        · rintro (hk | hk)
          · exact Or.inr ⟨rfl, hk⟩
          · exact Or.inl hk
        · rintro (hk | ⟨_, hk⟩)
          · exact Or.inr hk
          · exact Or.inl hk
    · rw [if_neg hc]
      constructor
      · exact Or.inl
      · rintro (h | ⟨hck, _⟩)
        · exact h
        · exact absurd hck.symm hc
  | none =>
    rw [indexAdd_eq_of_none idx key val hl, inIndex_mapInsert]
    by_cases hc : key = c
    · rw [if_pos hc]
      subst hc
      rw [List.mem_singleton]
      constructor
      · intro hk
        exact Or.inr ⟨rfl, hk⟩
      · rintro (h | ⟨_, hk⟩)
        · exact absurd h (inIndex_lookup_none hl k)
        · exact hk
    · rw [if_neg hc]
      constructor
      · exact Or.inl
      · rintro (h | ⟨hck, _⟩)
        · exact h
        · exact absurd hck.symm hc

/-- The inner tag loop of `rebuild_indices`. -/
theorem inIndex_tagFold (tags : List String) (k0 : String)
    (ti : List (String × List String)) (c k : String) :
    inIndex (tags.foldl (fun ti tag => indexAdd ti tag k0) ti) c k ↔
      inIndex ti c k ∨ (c ∈ tags ∧ k = k0) := by
  induction tags generalizing ti with
  | nil => simp
  | cons tag rest ih =>
    rw [List.foldl_cons, ih, inIndex_indexAdd, List.mem_cons]
    constructor
    · rintro ((h | ⟨hc, hk⟩) | ⟨hc, hk⟩)
      · exact Or.inl h
      · exact Or.inr ⟨Or.inl hc, hk⟩
      · exact Or.inr ⟨Or.inr hc, hk⟩
    · rintro (h | ⟨hc | hc, hk⟩)
      · exact Or.inl (Or.inl h)
      · exact Or.inl (Or.inr ⟨hc, hk⟩)
      · exact Or.inr ⟨hc, hk⟩

theorem exists_mem_cons_pair {α : Type} (kt : String × α)
    (rest : List (String × α)) (k : String) (P : α → Prop) :
    (∃ t, (k, t) ∈ kt :: rest ∧ P t) ↔
      (kt.1 = k ∧ P kt.2) ∨ ∃ t, (k, t) ∈ rest ∧ P t := by
  constructor
  · rintro ⟨t, hmem, hP⟩
    rw [List.mem_cons] at hmem
    rcases hmem with heq | hmem
    · obtain ⟨k0, v0⟩ := kt
      injection heq with h1 h2
      exact Or.inl ⟨h1.symm, h2 ▸ hP⟩
    · exact Or.inr ⟨t, hmem, hP⟩
  · rintro (⟨hk, hP⟩ | ⟨t, hmem, hP⟩)
    · refine ⟨kt.2, ?_, hP⟩
      rw [← hk]
      exact List.mem_cons_self _ _
    · exact ⟨t, List.mem_cons_of_mem _ hmem, hP⟩

theorem inIndex_rebuildStep_cat
    (acc : List (String × List String) × List (String × List String) ×
      List (String × List String))
    (kt : String × TechnicalTerm) (c k : String) :
    inIndex (rebuildStep acc kt).1 c k ↔
      inIndex acc.1 c k ∨ (kt.2.category = some c ∧ kt.1 = k) := by
  unfold rebuildStep
  cases hcat : kt.2.category with
  | some category =>
    simp only [hcat]
    rw [inIndex_indexAdd]
    constructor
    · rintro (h | ⟨hc, hk⟩)
      · exact Or.inl h
      · exact Or.inr ⟨by rw [hc], hk.symm⟩
    · rintro (h | ⟨hc, hk⟩)
      · exact Or.inl h
      · injection hc with hc
        exact Or.inr ⟨hc.symm, hk.symm⟩
  | none =>
    simp only [hcat]
    constructor
    · exact Or.inl
    · rintro (h | ⟨hc, _⟩)
      · exact h
      · exact absurd hc (by simp)

theorem inIndex_rebuildStep_ctx
    (acc : List (String × List String) × List (String × List String) ×
      List (String × List String))
    (kt : String × TechnicalTerm) (c k : String) :
    inIndex (rebuildStep acc kt).2.1 c k ↔
      inIndex acc.2.1 c k ∨ (kt.2.context = some c ∧ kt.1 = k) := by
  unfold rebuildStep
  cases hctx : kt.2.context with
  | some context =>
    simp only [hctx]
    rw [inIndex_indexAdd]
    constructor
    · rintro (h | ⟨hc, hk⟩)
      · exact Or.inl h
      · exact Or.inr ⟨by rw [hc], hk.symm⟩
    · rintro (h | ⟨hc, hk⟩)
      · exact Or.inl h
      · injection hc with hc
        exact Or.inr ⟨hc.symm, hk.symm⟩
  | none =>
    simp only [hctx]
    constructor
    · exact Or.inl
    · rintro (h | ⟨hc, _⟩)
      · exact h
      · exact absurd hc (by simp)

theorem inIndex_rebuildStep_tag
    (acc : List (String × List String) × List (String × List String) ×
      List (String × List String))
    (kt : String × TechnicalTerm) (c k : String) :
    inIndex (rebuildStep acc kt).2.2 c k ↔
      inIndex acc.2.2 c k ∨ (c ∈ kt.2.tags ∧ kt.1 = k) := by
  unfold rebuildStep
  simp only []
  rw [inIndex_tagFold]
  constructor
  · rintro (h | ⟨hc, hk⟩)
    · exact Or.inl h
    · exact Or.inr ⟨hc, hk.symm⟩
  · rintro (h | ⟨hc, hk⟩)
    · exact Or.inl h
    · exact Or.inr ⟨hc, hk.symm⟩

theorem inIndex_rebuildFold_cat (terms : List (String × TechnicalTerm))
    (acc : List (String × List String) × List (String × List String) ×
      List (String × List String)) (c k : String) :
    inIndex (terms.foldl rebuildStep acc).1 c k ↔
      inIndex acc.1 c k ∨ ∃ t, (k, t) ∈ terms ∧ t.category = some c := by
  induction terms generalizing acc with
  | nil => simp
  | cons kt rest ih =>
    rw [List.foldl_cons, ih, inIndex_rebuildStep_cat,
      exists_mem_cons_pair kt rest k (fun t => t.category = some c)]
    constructor
    · rintro ((h | ⟨hc, hk⟩) | h)
      · exact Or.inl h
      · exact Or.inr (Or.inl ⟨hk, hc⟩)
      · exact Or.inr (Or.inr h)
    · rintro (h | ⟨hk, hc⟩ | h)
      · exact Or.inl (Or.inl h)
      · exact Or.inl (Or.inr ⟨hc, hk⟩)
      · exact Or.inr h

theorem inIndex_rebuildFold_ctx (terms : List (String × TechnicalTerm))
    (acc : List (String × List String) × List (String × List String) ×
      List (String × List String)) (c k : String) :
    inIndex (terms.foldl rebuildStep acc).2.1 c k ↔
      inIndex acc.2.1 c k ∨ ∃ t, (k, t) ∈ terms ∧ t.context = some c := by
  induction terms generalizing acc with
  | nil => simp
  | cons kt rest ih =>
    rw [List.foldl_cons, ih, inIndex_rebuildStep_ctx,
      exists_mem_cons_pair kt rest k (fun t => t.context = some c)]
    constructor
    · rintro ((h | ⟨hc, hk⟩) | h)
      · exact Or.inl h
      · exact Or.inr (Or.inl ⟨hk, hc⟩)
      · exact Or.inr (Or.inr h)
    · rintro (h | ⟨hk, hc⟩ | h)
      · exact Or.inl (Or.inl h)
      · exact Or.inl (Or.inr ⟨hc, hk⟩)
      · exact Or.inr h

theorem inIndex_rebuildFold_tag (terms : List (String × TechnicalTerm))
    (acc : List (String × List String) × List (String × List String) ×
      List (String × List String)) (c k : String) :
    inIndex (terms.foldl rebuildStep acc).2.2 c k ↔
      inIndex acc.2.2 c k ∨ ∃ t, (k, t) ∈ terms ∧ c ∈ t.tags := by
  induction terms generalizing acc with
  | nil => simp
  | cons kt rest ih =>
    rw [List.foldl_cons, ih, inIndex_rebuildStep_tag,
      exists_mem_cons_pair kt rest k (fun t => c ∈ t.tags)]
    constructor
    · rintro ((h | ⟨hc, hk⟩) | h)
      · exact Or.inl h
      · exact Or.inr (Or.inl ⟨hk, hc⟩)
      · exact Or.inr (Or.inr h)
    · rintro (h | ⟨hk, hc⟩ | h)
      · exact Or.inl (Or.inl h)
      · exact Or.inl (Or.inr ⟨hc, hk⟩)
      · exact Or.inr h

theorem rebuild_category_mem (terms : List (String × TechnicalTerm))
    (c k : String) :
    inIndex (rebuild_indices terms).1 c k ↔
      ∃ t, (k, t) ∈ terms ∧ t.category = some c := by
  rw [rebuild_indices, inIndex_rebuildFold_cat]
  constructor
  · rintro (h | h)
    · exact absurd h (inIndex_nil c k)
    · exact h
  · exact Or.inr

theorem rebuild_context_mem (terms : List (String × TechnicalTerm))
    (c k : String) :
    inIndex (rebuild_indices terms).2.1 c k ↔
      ∃ t, (k, t) ∈ terms ∧ t.context = some c := by
  rw [rebuild_indices, inIndex_rebuildFold_ctx]
  constructor
  · rintro (h | h)
    · exact absurd h (inIndex_nil c k)
    · exact h
  · exact Or.inr

theorem rebuild_tag_mem (terms : List (String × TechnicalTerm))
    (c k : String) :
    inIndex (rebuild_indices terms).2.2 c k ↔
      ∃ t, (k, t) ∈ terms ∧ c ∈ t.tags := by
  rw [rebuild_indices, inIndex_rebuildFold_tag]
  constructor
  · rintro (h | h)
    · exact absurd h (inIndex_nil c k)
    · exact h
  · exact Or.inr

/-! ### The dictionary invariant along reachable states -/

theorem keys_map_replace (l : List (String × TechnicalTerm)) (h0 : String)
    (u : TechnicalTerm) :
    ((l.map (fun p => if p.1 = h0 then (p.1, u) else p)).map Prod.fst) =
      l.map Prod.fst := by
  induction l with
  | nil => rfl
  | cons p rest ih =>
    by_cases hp : p.1 = h0 <;> simp [hp, ih]

theorem update_term_eq_of_none {d : TechnicalDictionary} {hebrew : String}
    (hl : lookupA d.terms hebrew = none) (updates : TechnicalTerm)
    (now : Int) : update_term d hebrew updates now = d := by
  unfold update_term
  rw [hl]

theorem update_term_eq_of_some {d : TechnicalDictionary} {hebrew : String}
    {t0 : TechnicalTerm} (hl : lookupA d.terms hebrew = some t0)
    (updates : TechnicalTerm) (now : Int) :
    update_term d hebrew updates now =
      (let updates' := { updates with last_updated := now }
       let terms := d.terms.map
         (fun p => if p.1 = hebrew then (p.1, updates') else p)
       { d with
         terms := terms
         category_index := (rebuild_indices terms).1
         context_index := (rebuild_indices terms).2.1
         tag_index := (rebuild_indices terms).2.2 }) := by
  unfold update_term
  rw [hl]

theorem reachable_dict_invariant {d : TechnicalDictionary}
    (h : ReachableDict d) : DictInvariant d := by
  induction h with
  | new terms0 file_path hn => exact ⟨hn, rfl, rfl, rfl⟩
  | add d term now _ ih => exact ⟨keys_nodup_mapInsert ih.1 _ _, rfl, rfl, rfl⟩
  | update d hebrew updates now _ ih =>
    cases hl : lookupA d.terms hebrew with
    | none => rw [update_term_eq_of_none hl]; exact ih
    | some t0 =>
      rw [update_term_eq_of_some hl]
      refine ⟨?_, rfl, rfl, rfl⟩
      show ((d.terms.map _).map Prod.fst).Nodup
      rw [keys_map_replace]
      exact ih.1
  | delete d hebrew _ ih => exact ⟨keys_nodup_mapRemove ih.1 _, rfl, rfl, rfl⟩

theorem consistent_of_invariant {d : TechnicalDictionary}
    (h : DictInvariant d) : ConsistentDict d := by
  obtain ⟨hn, hc, hx, ht⟩ := h
  refine ⟨fun c k => ?_, fun x k => ?_, fun tg k => ?_⟩
  · rw [hc, rebuild_category_mem]
    constructor
    · rintro ⟨t, hmem, hcat⟩
      exact ⟨t, (lookupA_eq_some_iff hn k t).2 hmem, hcat⟩
    · rintro ⟨t, hl, hcat⟩
      exact ⟨t, (lookupA_eq_some_iff hn k t).1 hl, hcat⟩
  · rw [hx, rebuild_context_mem]
    constructor
    · rintro ⟨t, hmem, hctx⟩
      exact ⟨t, (lookupA_eq_some_iff hn k t).2 hmem, hctx⟩
    · rintro ⟨t, hl, hctx⟩
      exact ⟨t, (lookupA_eq_some_iff hn k t).1 hl, hctx⟩
  · rw [ht, rebuild_tag_mem]
    constructor
    · rintro ⟨t, hmem, htag⟩
      exact ⟨t, (lookupA_eq_some_iff hn k t).2 hmem, htag⟩
    · rintro ⟨t, hl, htag⟩
      exact ⟨t, (lookupA_eq_some_iff hn k t).1 hl, htag⟩

theorem consistent_of_reachable {d : TechnicalDictionary}
    (h : ReachableDict d) : ConsistentDict d :=
  consistent_of_invariant (reachable_dict_invariant h)

/-- C1: after every `add_term`, `update_term` or `delete_term` on a
dictionary reachable by any sequence of these mutations, the category
index maps each category `c` exactly to the hebrew keys whose stored
term has `category = some c`, the context index maps each context
exactly to the keys whose term has that context, and the tag index maps
each tag exactly to the keys whose term's tag set contains it — no
stale and no missing entries. -/
theorem derived_indices_consistent (d : TechnicalDictionary)
    (h : ReachableDict d) (term : TechnicalTerm) (hebrew : String)
    (updates : TechnicalTerm) (now now2 : Int) :
    ConsistentDict (add_term d term now) ∧
    ConsistentDict (update_term d hebrew updates now2) ∧
    ConsistentDict (delete_term d hebrew) :=
  ⟨consistent_of_reachable (ReachableDict.add d term now h),
   consistent_of_reachable (ReachableDict.update d hebrew updates now2 h),
   consistent_of_reachable (ReachableDict.delete d hebrew h)⟩

theorem derived_indices_consistent_witness :
    ConsistentDict
      (add_term (TechnicalDictionary.new [] "dict.json") sampleTerm 5) ∧
    ConsistentDict
      (update_term (TechnicalDictionary.new [] "dict.json") "ברז"
        sampleTerm2 6) ∧
    ConsistentDict (delete_term (TechnicalDictionary.new [] "dict.json") "ברז") :=
  derived_indices_consistent (TechnicalDictionary.new [] "dict.json")
    (ReachableDict.new [] "dict.json" (by simp)) sampleTerm "ברז"
    sampleTerm2 5 6

/-! ### C9: silent no-op on unknown id -/

/-- C9: on a reachable dictionary state, `update_term` and
`delete_term` with an id that is not in the term map return success
(the model has no error path for them) and leave the dictionary —
term map, indices and all — unchanged. -/
theorem unknown_id_noop (d : TechnicalDictionary) (h : ReachableDict d)
    (hebrew : String) (hl : lookupA d.terms hebrew = none)
    (updates : TechnicalTerm) (now : Int) :
    update_term d hebrew updates now = d ∧ delete_term d hebrew = d := by
  refine ⟨update_term_eq_of_none hl updates now, ?_⟩
  obtain ⟨hn, hc, hx, ht⟩ := reachable_dict_invariant h
  have hterms : mapRemove d.terms hebrew = d.terms := by
    rw [lookupA_eq_none_iff] at hl
    unfold mapRemove
    apply List.filter_eq_self.2
    intro p hp
    simp only [Bool.not_eq_true', decide_eq_false_iff_not]
    intro hph
    refine hl p.2 ?_
    rw [← hph]
    exact hp
  obtain ⟨terms, file_path, ci, xi, ti⟩ := d
  simp only at hterms hc hx ht
  simp only [delete_term, hterms]
  rw [← hc, ← hx, ← ht]

theorem unknown_id_noop_witness :
    update_term sampleDict "שסתום" sampleTerm2 7 = sampleDict ∧
    delete_term sampleDict "שסתום" = sampleDict :=
  unknown_id_noop sampleDict
    (ReachableDict.add (TechnicalDictionary.new [] "dict.json") sampleTerm 5
      (ReachableDict.new [] "dict.json" (by simp)))
    "שסתום" (by decide) sampleTerm2 7

/-! ### C2: lock acquisition -/

theorem acquire_eq_of_locked {m : KnowledgeManager} {term_id : String}
    {lock : EditLock} (hl : lookupA m.edit_locks term_id = some lock)
    {now : Int} (hexp : now < lock.expires_at) (user_id : String) :
    acquire_edit_lock m term_id user_id now = (m, false) := by
  unfold acquire_edit_lock
  rw [hl]
  simp [hexp]

theorem acquire_eq_of_free {m : KnowledgeManager} {term_id : String}
    {now : Int}
    (hfree : ∀ lock, lookupA m.edit_locks term_id = some lock →
      lock.expires_at ≤ now) (user_id : String) :
    acquire_edit_lock m term_id user_id now =
      ({ m with
          edit_locks :=
            mapInsert m.edit_locks term_id (freshLock term_id user_id now) },
        true) := by
  unfold acquire_edit_lock
  cases hl : lookupA m.edit_locks term_id with
  | some lock =>
    have := hfree lock hl
    simp [not_lt.2 this, freshLock]
  | none => simp [freshLock]

/-- C2: `acquire_edit_lock` returns `false` iff an unexpired lock on the
term exists at call time, regardless of holder (the state is then
unchanged); otherwise it returns `true` and installs a lock held by the
caller expiring 30 minutes after the acquisition time.  Consequently a
second acquisition of the same term by anyone before the TTL elapses
fails, and one at or after the expiry instant succeeds. -/
theorem acquire_edit_lock_spec (m : KnowledgeManager)
    (term_id user_id : String) (now : Int) :
    ((acquire_edit_lock m term_id user_id now).2 = false ↔
      ∃ lock, lookupA m.edit_locks term_id = some lock ∧
        now < lock.expires_at) ∧
    ((acquire_edit_lock m term_id user_id now).2 = false →
      (acquire_edit_lock m term_id user_id now).1 = m) ∧
    ((acquire_edit_lock m term_id user_id now).2 = true →
      (acquire_edit_lock m term_id user_id now).1 =
        { m with
          edit_locks :=
            mapInsert m.edit_locks term_id (freshLock term_id user_id now) }) ∧
    ((acquire_edit_lock m term_id user_id now).2 = true →
      ∀ user2 now2, now2 < now + minutes 30 →
        (acquire_edit_lock (acquire_edit_lock m term_id user_id now).1
          term_id user2 now2).2 = false) ∧
    ((acquire_edit_lock m term_id user_id now).2 = true →
      ∀ user2 now2, now + minutes 30 ≤ now2 →
        (acquire_edit_lock (acquire_edit_lock m term_id user_id now).1
          term_id user2 now2).2 = true) := by
  by_cases hlocked : ∃ lock, lookupA m.edit_locks term_id = some lock ∧
      now < lock.expires_at
  · obtain ⟨lock, hl, hexp⟩ := hlocked
    rw [acquire_eq_of_locked hl hexp user_id]
    refine ⟨⟨fun _ => ⟨lock, hl, hexp⟩, fun _ => rfl⟩, fun _ => rfl,
      fun h => absurd h (by simp), fun h => absurd h (by simp),
      fun h => absurd h (by simp)⟩
  · have hfree : ∀ lock, lookupA m.edit_locks term_id = some lock →
        lock.expires_at ≤ now := by
      intro lock hl
      by_contra hgt
      exact hlocked ⟨lock, hl, not_le.1 hgt⟩
    rw [acquire_eq_of_free hfree user_id]
    have hnewlock :
        lookupA (mapInsert m.edit_locks term_id
          (freshLock term_id user_id now)) term_id =
          some (freshLock term_id user_id now) := by
      rw [lookupA_mapInsert, if_pos rfl]
    refine ⟨⟨fun h => absurd h (by simp), fun h => absurd h hlocked⟩,
      fun h => absurd h (by simp), fun _ => rfl, ?_, ?_⟩
    · intro _ user2 now2 hlt
      rw [acquire_eq_of_locked hnewlock hlt user2]
    · intro _ user2 now2 hle
      have hfree2 : ∀ lock,
          lookupA (mapInsert m.edit_locks term_id
            (freshLock term_id user_id now)) term_id = some lock →
          lock.expires_at ≤ now2 := by
        intro lock hl
        rw [hnewlock] at hl
        injection hl with hl
        rw [← hl]
        exact hle
      rw [acquire_eq_of_free hfree2 user2]

theorem acquire_edit_lock_spec_witness :
    ((acquire_edit_lock sampleManager "ברז" "bob" 100).2 = false ↔
      ∃ lock, lookupA sampleManager.edit_locks "ברז" = some lock ∧
        (100 : Int) < lock.expires_at) ∧
    ((acquire_edit_lock sampleManager "ברז" "bob" 100).2 = false →
      (acquire_edit_lock sampleManager "ברז" "bob" 100).1 = sampleManager) ∧
    ((acquire_edit_lock sampleManager "ברז" "bob" 100).2 = true →
      (acquire_edit_lock sampleManager "ברז" "bob" 100).1 =
        { sampleManager with
          edit_locks :=
            mapInsert sampleManager.edit_locks "ברז"
              (freshLock "ברז" "bob" 100) }) ∧
    ((acquire_edit_lock sampleManager "ברז" "bob" 100).2 = true →
      ∀ user2 now2, now2 < 100 + minutes 30 →
        (acquire_edit_lock (acquire_edit_lock sampleManager "ברז" "bob" 100).1
          "ברז" user2 now2).2 = false) ∧
    ((acquire_edit_lock sampleManager "ברז" "bob" 100).2 = true →
      ∀ user2 now2, 100 + minutes 30 ≤ now2 →
        (acquire_edit_lock (acquire_edit_lock sampleManager "ברז" "bob" 100).1
          "ברז" user2 now2).2 = true) :=
  acquire_edit_lock_spec sampleManager "ברז" "bob" 100

/-! ### C3: lock release ignores expiry -/

/-- C3 counterexample: the claim demands that releasing an already
expired lock return `false`; at time 100 the lock of
`expiredLockManager` (expiring at 10) is expired, yet its holder's
release returns `true`. -/
theorem release_expired_lock_counterexample :
    ¬ (∀ (m : KnowledgeManager) (term_id user_id : String) (now : Int),
        (release_edit_lock m term_id user_id).2 = true →
        ∃ lock, lookupA m.edit_locks term_id = some lock ∧
          lock.locked_by = user_id ∧ now < lock.expires_at) := by
  intro hclaim
  obtain ⟨lock, hl, _, hexp⟩ :=
    hclaim expiredLockManager "t1" "A" 100 (by decide)
  have hstored : lookupA expiredLockManager.edit_locks "t1" =
      some expiredLock := by decide
  rw [hstored] at hl
  injection hl with hl
  rw [← hl] at hexp
  exact absurd hexp (by decide)

/-- C3 amended: `release_edit_lock` returns `true` and removes the lock
iff the stored lock's holder equals the caller — whether or not the
lock has expired (expiry is not consulted); in every other case it
returns `false` and leaves the manager unchanged. -/
theorem release_edit_lock_spec (m : KnowledgeManager)
    (term_id user_id : String) :
    ((release_edit_lock m term_id user_id).2 = true ↔
      ∃ lock, lookupA m.edit_locks term_id = some lock ∧
        lock.locked_by = user_id) ∧
    ((release_edit_lock m term_id user_id).2 = true →
      (release_edit_lock m term_id user_id).1 =
        { m with edit_locks := mapRemove m.edit_locks term_id }) ∧
    ((release_edit_lock m term_id user_id).2 = false →
      (release_edit_lock m term_id user_id).1 = m) := by
  cases hl : lookupA m.edit_locks term_id with
  | some lock =>
    by_cases hby : lock.locked_by = user_id
    · have hres : release_edit_lock m term_id user_id =
          ({ m with edit_locks := mapRemove m.edit_locks term_id }, true) := by
        unfold release_edit_lock
        rw [hl]
        simp [hby]
      rw [hres]
      exact ⟨⟨fun _ => ⟨lock, rfl, hby⟩, fun _ => rfl⟩, fun _ => rfl,
        fun h => absurd h (by simp)⟩
    · have hres : release_edit_lock m term_id user_id = (m, false) := by
        unfold release_edit_lock
        rw [hl]
        simp [hby]
      rw [hres]
      refine ⟨⟨fun h => absurd h (by simp), ?_⟩,
        fun h => absurd h (by simp), fun _ => rfl⟩
      rintro ⟨lock', hl', hby'⟩
      injection hl' with hl'
      rw [← hl'] at hby'
      exact absurd hby' hby
  | none =>
    have hres : release_edit_lock m term_id user_id = (m, false) := by
      unfold release_edit_lock
      rw [hl]
    rw [hres]
    refine ⟨⟨fun h => absurd h (by simp), ?_⟩,
      fun h => absurd h (by simp), fun _ => rfl⟩
    rintro ⟨lock', hl', _⟩
    exact Option.noConfusion hl'

theorem release_edit_lock_spec_witness :
    ((release_edit_lock expiredLockManager "t1" "A").2 = true ↔
      ∃ lock, lookupA expiredLockManager.edit_locks "t1" = some lock ∧
        lock.locked_by = "A") ∧
    ((release_edit_lock expiredLockManager "t1" "A").2 = true →
      (release_edit_lock expiredLockManager "t1" "A").1 =
        { expiredLockManager with
          edit_locks := mapRemove expiredLockManager.edit_locks "t1" }) ∧
    ((release_edit_lock expiredLockManager "t1" "A").2 = false →
      (release_edit_lock expiredLockManager "t1" "A").1 =
        expiredLockManager) :=
  release_edit_lock_spec expiredLockManager "t1" "A"

/-! ### C10: activities of unregistered users are dropped whole -/

/-- C10: when the user id is not registered in the collaborators map,
`update_collaborator_activity` leaves the entire manager state
unchanged — in particular the global activity log. -/
theorem unregistered_user_noop (m : KnowledgeManager) (user_id : String)
    (h : lookupA m.collaborators user_id = none)
    (activity : CollaboratorActivity) (now : Int) :
    update_collaborator_activity m user_id activity now = m := by
  unfold update_collaborator_activity
  rw [h]

theorem unregistered_user_noop_witness :
    update_collaborator_activity sampleManager "bob" sampleActivity 20 =
      sampleManager :=
  unregistered_user_noop sampleManager "bob" (by decide) sampleActivity 20

/-! ### C8: conflict detection -/

/-- C8: `get_edit_conflicts` returns exactly the lock-map entries for
which strictly more than one global-log entry is an `Editing` activity
targeting the lock's term that started within the 30 minutes before the
call — whether or not the lock itself has expired (its `expires_at`
plays no role); with at most one such entry the term is not flagged. -/
theorem get_edit_conflicts_spec (m : KnowledgeManager) (now : Int)
    (term_id : String) (lock : EditLock) :
    (term_id, lock) ∈ get_edit_conflicts m now ↔
      (term_id, lock) ∈ m.edit_locks ∧
      1 < m.activity_log.countP (fun a =>
        decide (a.activity_type = ActivityType.Editing ∧
          a.term_id = some lock.term_id ∧
          a.started_at > now - minutes 30)) := by
  unfold get_edit_conflicts
  rw [List.mem_filter]
  constructor
  · rintro ⟨hmem, htest⟩
    rw [conflictTest, decide_eq_true_eq] at htest
    exact ⟨hmem, htest⟩
  · rintro ⟨hmem, hcount⟩
    exact ⟨hmem, by rw [conflictTest, decide_eq_true_eq]; exact hcount⟩

/-! ### C4: version creation overwrites instead of failing -/

/-- C4 counterexample: creating a version under the already-stored id
`"v1"` does not fail with any error; it replaces the stored snapshot
(the description changes from `"first"` to `"second"`), where the
claim demands a `DuplicateVersion` failure leaving the stored version
unchanged. -/
theorem create_version_overwrites_counterexample :
    (lookupA versionedManager.versions "v1").map (fun v => v.description) =
      some "first" ∧
    (lookupA (create_version versionedManager sampleDict "v1" "bob" "second"
      20).versions "v1").map (fun v => v.description) = some "second" := by
  decide

/-- C4 amended: `create_version` always succeeds (the code has no
duplicate check and no `DuplicateVersion` error); it stores under
`version_id` a copy of the dictionary's full term map and of the set of
all tags occurring in its terms, replacing any version previously
stored under that id and leaving every other version and every other
manager field unchanged. -/
theorem create_version_spec (m : KnowledgeManager)
    (dictionary : TechnicalDictionary)
    (version_id created_by description : String) (now : Int) :
    lookupA (create_version m dictionary version_id created_by description
        now).versions version_id =
      some (snapshotOf dictionary version_id created_by description now) ∧
    (∀ v', v' ≠ version_id →
      lookupA (create_version m dictionary version_id created_by description
          now).versions v' = lookupA m.versions v') ∧
    (create_version m dictionary version_id created_by description
        now).change_history = m.change_history ∧
    (create_version m dictionary version_id created_by description
        now).collaborators = m.collaborators ∧
    (create_version m dictionary version_id created_by description
        now).edit_locks = m.edit_locks ∧
    (create_version m dictionary version_id created_by description
        now).review_requests = m.review_requests ∧
    (create_version m dictionary version_id created_by description
        now).conflict_resolutions = m.conflict_resolutions ∧
    (create_version m dictionary version_id created_by description
        now).last_sync = m.last_sync ∧
    (create_version m dictionary version_id created_by description
        now).activity_log = m.activity_log := by
  refine ⟨?_, ?_, rfl, rfl, rfl, rfl, rfl, rfl, rfl⟩
  · show lookupA (mapInsert m.versions version_id _) version_id = _
    rw [lookupA_mapInsert, if_pos rfl]
    rfl
  · intro v' hv
    show lookupA (mapInsert m.versions version_id _) v' = _
    rw [lookupA_mapInsert, if_neg (fun hh => hv hh.symm)]

theorem create_version_spec_witness :
    lookupA (create_version versionedManager sampleDict "v1" "bob" "second"
        20).versions "v1" =
      some (snapshotOf sampleDict "v1" "bob" "second" 20) ∧
    (∀ v', v' ≠ "v1" →
      lookupA (create_version versionedManager sampleDict "v1" "bob" "second"
          20).versions v' = lookupA versionedManager.versions v') ∧
    (create_version versionedManager sampleDict "v1" "bob" "second"
        20).change_history = versionedManager.change_history ∧
    (create_version versionedManager sampleDict "v1" "bob" "second"
        20).collaborators = versionedManager.collaborators ∧
    (create_version versionedManager sampleDict "v1" "bob" "second"
        20).edit_locks = versionedManager.edit_locks ∧
    (create_version versionedManager sampleDict "v1" "bob" "second"
        20).review_requests = versionedManager.review_requests ∧
    (create_version versionedManager sampleDict "v1" "bob" "second"
        20).conflict_resolutions = versionedManager.conflict_resolutions ∧
    (create_version versionedManager sampleDict "v1" "bob" "second"
        20).last_sync = versionedManager.last_sync ∧
    (create_version versionedManager sampleDict "v1" "bob" "second"
        20).activity_log = versionedManager.activity_log :=
  create_version_spec versionedManager sampleDict "v1" "bob" "second" 20

/-! ### C7: activity recording -/

theorem lookupA_replace_eq {α : Type} (l : List (String × α)) (k : String)
    (v : α) :
    lookupA (l.map (fun p => if p.1 = k then (p.1, v) else p)) k =
      (lookupA l k).map (fun _ => v) := by
  induction l with
  | nil => rfl
  | cons p rest ih =>
    obtain ⟨k0, v0⟩ := p
    by_cases hk0 : k0 = k
    · simp only [List.map_cons, if_pos hk0]
      rw [lookupA, if_pos hk0, lookupA, if_pos hk0]
      rfl
    · simp only [List.map_cons, if_neg hk0]
      rw [lookupA, if_neg hk0, lookupA, if_neg hk0, ih]

theorem lookupA_replace_ne {α : Type} (l : List (String × α)) (k : String)
    (v : α) (k' : String) (h : k' ≠ k) :
    lookupA (l.map (fun p => if p.1 = k then (p.1, v) else p)) k' =
      lookupA l k' := by
  induction l with
  | nil => rfl
  | cons p rest ih =>
    obtain ⟨k0, v0⟩ := p
    by_cases hk0 : k0 = k
    · have hne : k0 ≠ k' := by rw [hk0]; exact fun hh => h hh.symm
      simp only [List.map_cons, if_pos hk0]
      rw [lookupA, if_neg hne, lookupA, if_neg hne, ih]
    · simp only [List.map_cons, if_neg hk0]
      rw [lookupA, lookupA]
      by_cases hk' : k0 = k' <;> simp [hk', ih]

/-- C7 counterexample: recording an activity for the registered
collaborator `"alice"` does update her `current_activity` (the call
takes effect), but leaves her personal `edit_history` ring buffer empty
— the code never pushes the activity into the collaborator's personal
buffer, where the claim says it does. -/
theorem record_activity_personal_buffer_counterexample :
    (lookupA (update_collaborator_activity sampleManager "alice"
        sampleActivity 10).collaborators "alice").map
      (fun c => c.edit_history) = some [] ∧
    (lookupA (update_collaborator_activity sampleManager "alice"
        sampleActivity 10).collaborators "alice").map
      (fun c => c.current_activity) = some (some sampleActivity) := by
  decide

/-- C7 amended: for a registered collaborator, `record_activity`
(`update_collaborator_activity`) sets `last_active` to the call time
and `current_activity` to the activity, pushes the activity onto the
front of the global activity log (evicting the back entry so the log
never grows beyond 1000 entries, newest first), leaves every other
collaborator unchanged, and does not touch the collaborator's personal
`edit_history` buffer. -/
theorem record_activity_spec (m : KnowledgeManager) (user_id : String)
    (c : CollaboratorInfo) (h : lookupA m.collaborators user_id = some c)
    (activity : CollaboratorActivity) (now : Int) :
    lookupA (update_collaborator_activity m user_id activity
        now).collaborators user_id =
      some { c with last_active := now, current_activity := some activity } ∧
    (∀ u', u' ≠ user_id →
      lookupA (update_collaborator_activity m user_id activity
          now).collaborators u' = lookupA m.collaborators u') ∧
    (update_collaborator_activity m user_id activity now).activity_log =
      (if (activity :: m.activity_log).length > 1000 then
        (activity :: m.activity_log).dropLast
      else activity :: m.activity_log) ∧
    ((update_collaborator_activity m user_id activity
        now).activity_log).head? = some activity ∧
    (m.activity_log.length ≤ 1000 →
      (update_collaborator_activity m user_id activity
        now).activity_log.length ≤ 1000) := by
  have hres : update_collaborator_activity m user_id activity now =
      { m with
        collaborators := m.collaborators.map
          (fun p => if p.1 = user_id then
            (p.1, { c with
              last_active := now
              current_activity := some activity }) else p)
        activity_log :=
          if (activity :: m.activity_log).length > 1000 then
            (activity :: m.activity_log).dropLast
          else activity :: m.activity_log } := by
    unfold update_collaborator_activity
    rw [h]
  rw [hres]
  refine ⟨?_, ?_, rfl, ?_, ?_⟩
  · show lookupA (m.collaborators.map _) user_id = _
    rw [lookupA_replace_eq, h]
    rfl
  · intro u' hu
    show lookupA (m.collaborators.map _) u' = _
    rw [lookupA_replace_ne _ _ _ _ hu]
  · show (if (activity :: m.activity_log).length > 1000 then
        (activity :: m.activity_log).dropLast
      else activity :: m.activity_log).head? = some activity
    cases hlog : m.activity_log with
    | nil => simp
    | cons b rest =>
      by_cases hlen : (activity :: b :: rest).length > 1000
      · rw [if_pos hlen]
        rfl
      · rw [if_neg hlen]
        rfl
  · intro hle
    show (if (activity :: m.activity_log).length > 1000 then
        (activity :: m.activity_log).dropLast
      else activity :: m.activity_log).length ≤ 1000
    by_cases hlen : (activity :: m.activity_log).length > 1000
    · rw [if_pos hlen, List.length_dropLast, List.length_cons]
      omega
    · rw [if_neg hlen]
      omega

theorem record_activity_spec_witness :
    lookupA (update_collaborator_activity sampleManager "alice"
        sampleActivity 20).collaborators "alice" =
      some { aliceInfo with
        last_active := 20
        current_activity := some sampleActivity } ∧
    (∀ u', u' ≠ "alice" →
      lookupA (update_collaborator_activity sampleManager "alice"
          sampleActivity 20).collaborators u' =
        lookupA sampleManager.collaborators u') ∧
    (update_collaborator_activity sampleManager "alice" sampleActivity
        20).activity_log =
      (if (sampleActivity :: sampleManager.activity_log).length > 1000 then
        (sampleActivity :: sampleManager.activity_log).dropLast
      else sampleActivity :: sampleManager.activity_log) ∧
    ((update_collaborator_activity sampleManager "alice" sampleActivity
        20).activity_log).head? = some sampleActivity ∧
    (sampleManager.activity_log.length ≤ 1000 →
      (update_collaborator_activity sampleManager "alice" sampleActivity
        20).activity_log.length ≤ 1000) :=
  record_activity_spec sampleManager "alice" aliceInfo (by decide)
    sampleActivity 20

/-! ### C6: version comparison -/

theorem compareStep1_of_none {v1 : DictionaryVersion}
    {kt : String × TechnicalTerm} (hl : lookupA v1.terms kt.1 = none)
    (r : DictionaryMergeReport) :
    compareStep1 v1 r kt =
      { r with added_terms := r.added_terms ++ [kt.2] } := by
  unfold compareStep1
  rw [hl]

theorem compareStep1_of_some {v1 : DictionaryVersion}
    {kt : String × TechnicalTerm} {t1 : TechnicalTerm}
    (hl : lookupA v1.terms kt.1 = some t1) (r : DictionaryMergeReport) :
    compareStep1 v1 r kt =
      (if t1 ≠ kt.2 then { r with updated_terms := r.updated_terms ++ [kt.2] }
       else r) := by
  unfold compareStep1
  rw [hl]

theorem compareStep2_of_none {v2 : DictionaryVersion}
    {kt : String × TechnicalTerm} (hl : lookupA v2.terms kt.1 = none)
    (r : DictionaryMergeReport) : compareStep2 v2 r kt = r := by
  unfold compareStep2
  rw [hl]

theorem compareStep2_of_some {v2 : DictionaryVersion}
    {kt : String × TechnicalTerm} {t2 : TechnicalTerm}
    (hl : lookupA v2.terms kt.1 = some t2) (r : DictionaryMergeReport) :
    compareStep2 v2 r kt =
      (if kt.2.last_updated = t2.last_updated ∧ kt.2 ≠ t2 then
        { r with conflicting_terms := r.conflicting_terms ++ [(kt.2, t2)] }
       else r) := by
  unfold compareStep2
  rw [hl]

theorem compareStep1_fold_added (v1 : DictionaryVersion)
    (l : List (String × TechnicalTerm)) (r : DictionaryMergeReport) :
    (l.foldl (compareStep1 v1) r).added_terms =
      r.added_terms ++ l.filterMap (fun kt =>
        match lookupA v1.terms kt.1 with
        | some _ => none
        | none => some kt.2) := by
  induction l generalizing r with
  | nil => simp
  | cons kt rest ih =>
    rw [List.foldl_cons, ih, List.filterMap_cons]
    cases hl : lookupA v1.terms kt.1 with
    | some t1 =>
      rw [compareStep1_of_some hl]
      by_cases hne : t1 ≠ kt.2
      · rw [if_pos hne]
      · rw [if_neg hne]
    | none =>
      rw [compareStep1_of_none hl]
      simp

theorem compareStep1_fold_updated (v1 : DictionaryVersion)
    (l : List (String × TechnicalTerm)) (r : DictionaryMergeReport) :
    (l.foldl (compareStep1 v1) r).updated_terms =
      r.updated_terms ++ l.filterMap (fun kt =>
        match lookupA v1.terms kt.1 with
        | some t1 => if t1 ≠ kt.2 then some kt.2 else none
        | none => none) := by
  induction l generalizing r with
  | nil => simp
  | cons kt rest ih =>
    rw [List.foldl_cons, ih, List.filterMap_cons]
    cases hl : lookupA v1.terms kt.1 with
    | some t1 =>
      rw [compareStep1_of_some hl]
      by_cases hne : t1 ≠ kt.2
      · rw [if_pos hne]
        simp [hne]
      · rw [if_neg hne]
        simp [hne]
    | none =>
      rw [compareStep1_of_none hl]

theorem compareStep1_fold_conflicting (v1 : DictionaryVersion)
    (l : List (String × TechnicalTerm)) (r : DictionaryMergeReport) :
    (l.foldl (compareStep1 v1) r).conflicting_terms =
      r.conflicting_terms := by
  induction l generalizing r with
  | nil => rfl
  | cons kt rest ih =>
    rw [List.foldl_cons, ih]
    cases hl : lookupA v1.terms kt.1 with
    | some t1 =>
      rw [compareStep1_of_some hl]
      by_cases hne : t1 ≠ kt.2
      · rw [if_pos hne]
      · rw [if_neg hne]
    | none =>
      rw [compareStep1_of_none hl]

theorem compareStep2_fold_added (v2 : DictionaryVersion)
    (l : List (String × TechnicalTerm)) (r : DictionaryMergeReport) :
    (l.foldl (compareStep2 v2) r).added_terms = r.added_terms := by
  induction l generalizing r with
  | nil => rfl
  | cons kt rest ih =>
    rw [List.foldl_cons, ih]
    cases hl : lookupA v2.terms kt.1 with
    | some t2 =>
      rw [compareStep2_of_some hl]
      by_cases hc : kt.2.last_updated = t2.last_updated ∧ kt.2 ≠ t2
      · rw [if_pos hc]
      · rw [if_neg hc]
    | none =>
      rw [compareStep2_of_none hl]

theorem compareStep2_fold_updated (v2 : DictionaryVersion)
    (l : List (String × TechnicalTerm)) (r : DictionaryMergeReport) :
    (l.foldl (compareStep2 v2) r).updated_terms = r.updated_terms := by
  induction l generalizing r with
  | nil => rfl
  | cons kt rest ih =>
    rw [List.foldl_cons, ih]
    cases hl : lookupA v2.terms kt.1 with
    | some t2 =>
      rw [compareStep2_of_some hl]
      by_cases hc : kt.2.last_updated = t2.last_updated ∧ kt.2 ≠ t2
      · rw [if_pos hc]
      · rw [if_neg hc]
    | none =>
      rw [compareStep2_of_none hl]

theorem compareStep2_fold_conflicting (v2 : DictionaryVersion)
    (l : List (String × TechnicalTerm)) (r : DictionaryMergeReport) :
    (l.foldl (compareStep2 v2) r).conflicting_terms =
      r.conflicting_terms ++ l.filterMap (fun kt =>
        match lookupA v2.terms kt.1 with
        | some t2 =>
          if kt.2.last_updated = t2.last_updated ∧ kt.2 ≠ t2 then
            some (kt.2, t2)
          else none
        | none => none) := by
  induction l generalizing r with
  | nil => simp
  | cons kt rest ih =>
    rw [List.foldl_cons, ih, List.filterMap_cons]
    cases hl : lookupA v2.terms kt.1 with
    | some t2 =>
      rw [compareStep2_of_some hl]
      by_cases hc : kt.2.last_updated = t2.last_updated ∧ kt.2 ≠ t2
      · rw [if_pos hc]
        simp [hc]
      · rw [if_neg hc]
        simp [hc]
    | none =>
      rw [compareStep2_of_none hl]

theorem compare_versions_eq {m : KnowledgeManager} {idA idB : String}
    {now : Int} {vA vB : DictionaryVersion}
    (hA : lookupA m.versions idA = some vA)
    (hB : lookupA m.versions idB = some vB) :
    compare_versions m idA idB now =
      some (vA.terms.foldl (compareStep2 vB)
        (vB.terms.foldl (compareStep1 vA)
          { added_terms := []
            updated_terms := []
            conflicting_terms := []
            timestamp := now })) := by
  unfold compare_versions
  rw [hA, hB]

/-- C6: for stored versions `vA` (first argument) and `vB` (second
argument), `compare_versions` reports as added exactly the terms whose
id is in `vB` but not in `vA`, as updated exactly the (`vB` copies of)
terms present in both with unequal content, and as conflicting exactly
the pairs present in both whose `last_updated` stamps are equal but
whose contents differ. -/
theorem compare_versions_spec (m : KnowledgeManager) (idA idB : String)
    (now : Int) (vA vB : DictionaryVersion)
    (hA : lookupA m.versions idA = some vA)
    (hB : lookupA m.versions idB = some vB)
    (hnA : (vA.terms.map Prod.fst).Nodup)
    (hnB : (vB.terms.map Prod.fst).Nodup) :
    ∃ r, compare_versions m idA idB now = some r ∧
      (∀ t, t ∈ r.added_terms ↔
        ∃ id, lookupA vB.terms id = some t ∧ lookupA vA.terms id = none) ∧
      (∀ t, t ∈ r.updated_terms ↔
        ∃ id tA, lookupA vB.terms id = some t ∧
          lookupA vA.terms id = some tA ∧ tA ≠ t) ∧
      (∀ p : TechnicalTerm × TechnicalTerm, p ∈ r.conflicting_terms ↔
        ∃ id, lookupA vA.terms id = some p.1 ∧
          lookupA vB.terms id = some p.2 ∧
          p.1.last_updated = p.2.last_updated ∧ p.1 ≠ p.2) := by
  refine ⟨_, compare_versions_eq hA hB, ?_, ?_, ?_⟩
  · intro t
    rw [compareStep2_fold_added, compareStep1_fold_added, List.nil_append,
      List.mem_filterMap]
    constructor
    · rintro ⟨kt, hmem, hf⟩
      cases hl : lookupA vA.terms kt.1 with
      | some t1 =>
        rw [hl] at hf
        exact absurd hf (by simp)
      | none =>
        rw [hl] at hf
        injection hf with hf
        refine ⟨kt.1, ?_, hl⟩
        rw [lookupA_eq_some_iff hnB, ← hf]
        exact hmem

    · rintro ⟨id, hsome, hnone⟩
      refine ⟨(id, t), (lookupA_eq_some_iff hnB id t).1 hsome, ?_⟩
      rw [hnone]
  · intro t
    rw [compareStep2_fold_updated, compareStep1_fold_updated,
      List.nil_append, List.mem_filterMap]
    constructor
    · rintro ⟨kt, hmem, hf⟩
      cases hl : lookupA vA.terms kt.1 with
      | some t1 =>
        rw [hl] at hf
        have hf' : (if t1 ≠ kt.2 then some kt.2 else none) = some t := hf
        by_cases hne : t1 ≠ kt.2
        · rw [if_pos hne] at hf'
          injection hf' with hf'
          refine ⟨kt.1, t1, ?_, hl, hf' ▸ hne⟩
          rw [lookupA_eq_some_iff hnB, ← hf']
          exact hmem
        · rw [if_neg hne] at hf'
          exact absurd hf' (by simp)
      | none =>
        rw [hl] at hf
        exact absurd hf (by simp)
    · rintro ⟨id, tA, hsome, hsomeA, hne⟩
      refine ⟨(id, t), (lookupA_eq_some_iff hnB id t).1 hsome, ?_⟩
      rw [hsomeA]
      show (if tA ≠ t then some t else none) = some t
      rw [if_pos hne]
  · intro p
    rw [compareStep2_fold_conflicting, compareStep1_fold_conflicting,
      List.nil_append, List.mem_filterMap]
    constructor
    · rintro ⟨kt, hmem, hf⟩
      cases hl : lookupA vB.terms kt.1 with
      | some t2 =>
        rw [hl] at hf
        have hf' :
            (if kt.2.last_updated = t2.last_updated ∧ kt.2 ≠ t2 then
              some (kt.2, t2) else none) = some p := hf
        by_cases hc : kt.2.last_updated = t2.last_updated ∧ kt.2 ≠ t2
        · rw [if_pos hc] at hf'
          injection hf' with hf'
          subst hf'
          refine ⟨kt.1, ?_, hl, hc.1, hc.2⟩
          rw [lookupA_eq_some_iff hnA]
          exact hmem
        · rw [if_neg hc] at hf'
          exact absurd hf' (by simp)
      | none =>
        rw [hl] at hf
        exact absurd hf (by simp)
    · rintro ⟨id, hsomeA, hsomeB, hts, hne⟩
      refine ⟨(id, p.1), (lookupA_eq_some_iff hnA id p.1).1 hsomeA, ?_⟩
      rw [hsomeB]
      show (if p.1.last_updated = p.2.last_updated ∧ p.1 ≠ p.2 then
        some (p.1, p.2) else none) = some p
      rw [if_pos ⟨hts, hne⟩]

theorem compare_versions_spec_witness :
    ∃ r, compare_versions compareManager "vA" "vB" 30 = some r ∧
      (∀ t, t ∈ r.added_terms ↔
        ∃ id, lookupA versionB.terms id = some t ∧
          lookupA versionA.terms id = none) ∧
      (∀ t, t ∈ r.updated_terms ↔
        ∃ id tA, lookupA versionB.terms id = some t ∧
          lookupA versionA.terms id = some tA ∧ tA ≠ t) ∧
      (∀ p : TechnicalTerm × TechnicalTerm, p ∈ r.conflicting_terms ↔
        ∃ id, lookupA versionA.terms id = some p.1 ∧
          lookupA versionB.terms id = some p.2 ∧
          p.1.last_updated = p.2.last_updated ∧ p.1 ≠ p.2) :=
  compare_versions_spec compareManager "vA" "vB" 30 versionA versionB
    (by decide) (by decide) (by decide) (by decide)

/-! ### C5: search matching -/

theorem startsWith_iff (p s : List Char) :
    startsWith p s = true ↔ ∃ r, s = p ++ r := by
  induction p generalizing s with
  | nil =>
    simp only [startsWith, List.nil_append]
    exact ⟨fun _ => ⟨s, rfl⟩, fun _ => trivial⟩
  | cons c cs ih =>
    cases s with
    | nil =>
      simp [startsWith]
    | cons c' s' =>
      rw [startsWith, Bool.and_eq_true, decide_eq_true_eq, ih]
      constructor
      · rintro ⟨rfl, r, rfl⟩
        exact ⟨r, rfl⟩
      · rintro ⟨r, hr⟩
        injection hr with h1 h2
        exact ⟨h1.symm, r, h2⟩

theorem containsSub_iff (pat s : List Char) :
    containsSub pat s = true ↔ ∃ l r, s = l ++ pat ++ r := by
  induction s with
  | nil =>
    rw [containsSub, startsWith_iff]
    constructor
    · rintro ⟨r, hr⟩
      exact ⟨[], r, hr⟩
    · rintro ⟨l, r, hr⟩
      have h1 := hr.symm
      rw [List.append_eq_nil] at h1
      obtain ⟨h2, h3⟩ := h1
      rw [List.append_eq_nil] at h2
      exact ⟨[], by simp [h2.2]⟩
  | cons c s' ih =>
    rw [containsSub, Bool.or_eq_true, startsWith_iff, ih]
    constructor
    · rintro (⟨r, hr⟩ | ⟨l, r, hr⟩)
      · exact ⟨[], r, hr⟩
      · exact ⟨c :: l, r, by rw [hr]; rfl⟩
    · rintro ⟨l, r, hr⟩
      cases l with
      | nil =>
        exact Or.inl ⟨r, hr⟩
      | cons x l' =>
        injection hr with h1 h2
        exact Or.inr ⟨l', r, h2⟩

theorem fieldMatchB_iff (query : SearchQuery) (field0 : String) :
    fieldMatchB query field0 = true ↔
      specTextMatch.specFieldMatch query field0 := by
  unfold fieldMatchB str_contains specTextMatch.specFieldMatch
  by_cases he : query.exact_match
  · rw [if_pos he, if_pos he, decide_eq_true_eq]
  · rw [if_neg he, if_neg he]
    exact containsSub_iff _ _

theorem shouldInclude_eq_he {query : SearchQuery} (hhe : query.lang = "he")
    (term : TechnicalTerm) :
    shouldInclude query term =
      (if query.include_synonyms then
        fieldMatchB query term.hebrew ||
          term.synonyms_he.any (fun s => fieldMatchB query s)
      else fieldMatchB query term.hebrew) := by
  unfold shouldInclude
  rw [hhe]
  simp

theorem shouldInclude_eq_ru {query : SearchQuery} (hru : query.lang = "ru")
    (term : TechnicalTerm) :
    shouldInclude query term =
      (if query.include_synonyms then
        fieldMatchB query term.russian ||
          term.synonyms_ru.any (fun s => fieldMatchB query s)
      else fieldMatchB query term.russian) := by
  unfold shouldInclude
  rw [hru]
  simp

theorem shouldInclude_eq_other {query : SearchQuery}
    (hhe : query.lang ≠ "he") (hru : query.lang ≠ "ru")
    (term : TechnicalTerm) : shouldInclude query term = false := by
  unfold shouldInclude
  simp [hhe, hru]

theorem shouldInclude_iff (query : SearchQuery) (term : TechnicalTerm) :
    shouldInclude query term = true ↔ specTextMatch query term := by
  by_cases hhe : query.lang = "he"
  · rw [shouldInclude_eq_he hhe]
    unfold specTextMatch
    constructor
    · intro h
      refine ⟨term.hebrew, term.synonyms_he, Or.inl ⟨hhe, rfl, rfl⟩, ?_⟩
      by_cases hinc : query.include_synonyms
      · rw [if_pos hinc, Bool.or_eq_true] at h
        rcases h with h | h
        · exact Or.inl ((fieldMatchB_iff query term.hebrew).1 h)
        · rw [List.any_eq_true] at h
          obtain ⟨s, hsmem, hsm⟩ := h
          exact Or.inr ⟨hinc, s, hsmem, (fieldMatchB_iff query s).1 hsm⟩
      · rw [if_neg hinc] at h
        exact Or.inl ((fieldMatchB_iff query term.hebrew).1 h)
    · rintro ⟨primary0, synonyms0, hdisj, hmatch⟩
      rcases hdisj with ⟨_, hp, hsyn⟩ | ⟨hru, hp, hsyn⟩
      · subst hp
        subst hsyn
        rcases hmatch with hm | ⟨hinc, s, hsmem, hsm⟩
        · by_cases hinc : query.include_synonyms
          · rw [if_pos hinc, Bool.or_eq_true]
            exact Or.inl ((fieldMatchB_iff query term.hebrew).2 hm)
          · rw [if_neg hinc]
            exact (fieldMatchB_iff query term.hebrew).2 hm
        · rw [if_pos hinc, Bool.or_eq_true]
          exact Or.inr (List.any_eq_true.2
            ⟨s, hsmem, (fieldMatchB_iff query s).2 hsm⟩)
      · rw [hhe] at hru
        exact absurd hru (by decide)
  · by_cases hru : query.lang = "ru"
    · rw [shouldInclude_eq_ru hru]
      unfold specTextMatch
      constructor
      · intro h
        refine ⟨term.russian, term.synonyms_ru, Or.inr ⟨hru, rfl, rfl⟩, ?_⟩
        by_cases hinc : query.include_synonyms
        · rw [if_pos hinc, Bool.or_eq_true] at h
          rcases h with h | h
          · exact Or.inl ((fieldMatchB_iff query term.russian).1 h)
          · rw [List.any_eq_true] at h
            obtain ⟨s, hsmem, hsm⟩ := h
            exact Or.inr ⟨hinc, s, hsmem, (fieldMatchB_iff query s).1 hsm⟩
        · rw [if_neg hinc] at h
          exact Or.inl ((fieldMatchB_iff query term.russian).1 h)
      · rintro ⟨primary0, synonyms0, hdisj, hmatch⟩
        rcases hdisj with ⟨hhe2, hp, hsyn⟩ | ⟨_, hp, hsyn⟩
        · exact absurd hhe2 hhe
        · subst hp
          subst hsyn
          rcases hmatch with hm | ⟨hinc, s, hsmem, hsm⟩
          · by_cases hinc : query.include_synonyms
            · rw [if_pos hinc, Bool.or_eq_true]
              exact Or.inl ((fieldMatchB_iff query term.russian).2 hm)
            · rw [if_neg hinc]
              exact (fieldMatchB_iff query term.russian).2 hm
          · rw [if_pos hinc, Bool.or_eq_true]
            exact Or.inr (List.any_eq_true.2
              ⟨s, hsmem, (fieldMatchB_iff query s).2 hsm⟩)
    · rw [shouldInclude_eq_other hhe hru]
      unfold specTextMatch
      constructor
      · intro h
        exact absurd h (by simp)
      · rintro ⟨primary0, synonyms0, hdisj, _⟩
        rcases hdisj with ⟨hl, _, _⟩ | ⟨hl, _, _⟩
        · exact absurd hl hhe
        · exact absurd hl hru

theorem categoryFilter_iff (query : SearchQuery) (term : TechnicalTerm) :
    categoryFilter query term = true ↔
      ∀ categories, query.categories = some categories →
        ∃ c, term.category = some c ∧ c ∈ categories := by
  unfold categoryFilter
  cases hq : query.categories with
  | none =>
    constructor
    · intro _ categories hcats
      exact Option.noConfusion hcats
    · intro _
      rfl
  | some categories =>
    cases hc : term.category with
    | none =>
      constructor
      · intro h
        exact absurd h (by simp)
      · intro hall
        obtain ⟨c, hcc, _⟩ := hall categories rfl
        exact Option.noConfusion hcc
    | some term_category =>
      rw [decide_eq_true_eq]
      constructor
      · intro h categories' hcats
        injection hcats with he
        subst he
        exact ⟨term_category, rfl, h⟩
      · intro hall
        obtain ⟨c, hcc, hcin⟩ := hall categories rfl
        injection hcc with hcc
        rw [hcc]
        exact hcin

theorem contextFilter_iff (query : SearchQuery) (term : TechnicalTerm) :
    contextFilter query term = true ↔
      ∀ contexts, query.contexts = some contexts →
        ∃ x, term.context = some x ∧ x ∈ contexts := by
  unfold contextFilter
  cases hq : query.contexts with
  | none =>
    constructor
    · intro _ contexts hctx
      exact Option.noConfusion hctx
    · intro _
      rfl
  | some contexts =>
    cases hc : term.context with
    | none =>
      constructor
      · intro h
        exact absurd h (by simp)
      · intro hall
        obtain ⟨x, hcc, _⟩ := hall contexts rfl
        exact Option.noConfusion hcc
    | some term_context =>
      rw [decide_eq_true_eq]
      constructor
      · intro h contexts' hctx
        injection hctx with he
        subst he
        exact ⟨term_context, rfl, h⟩
      · intro hall
        obtain ⟨x, hcc, hcin⟩ := hall contexts rfl
        injection hcc with hcc
        rw [hcc]
        exact hcin

theorem tagFilter_iff (query : SearchQuery) (term : TechnicalTerm) :
    tagFilter query term = true ↔
      ∀ tags, query.tags = some tags → ∀ tag ∈ tags, tag ∈ term.tags := by
  unfold tagFilter
  cases hq : query.tags with
  | none =>
    constructor
    · intro _ tags htags
      exact Option.noConfusion htags
    · intro _
      rfl
  | some tags =>
    rw [List.all_eq_true]
    constructor
    · intro h tags' htags
      injection htags with he
      subst he
      intro tag htag
      exact of_decide_eq_true (h tag htag)
    · intro h tag htag
      exact decide_eq_true ((h tags rfl) tag htag)

theorem mem_insertSorted (a t : TechnicalTerm) (l : List TechnicalTerm) :
    t ∈ insertSorted a l ↔ t = a ∨ t ∈ l := by
  induction l with
  | nil => simp [insertSorted]
  | cons b l ih =>
    rw [insertSorted]
    by_cases h : hebrewLe a b = true
    · simp [h]
    · simp only [Bool.not_eq_true] at h
      simp only [h, Bool.false_eq_true, if_false, List.mem_cons, ih]
      constructor
      · rintro (hb | ha | hl)
        · exact Or.inr (Or.inl hb)
        · exact Or.inl ha
        · exact Or.inr (Or.inr hl)
      · rintro (ha | hb | hl)
        · exact Or.inr (Or.inl ha)
        · exact Or.inl hb
        · exact Or.inr (Or.inr hl)

theorem mem_sortByHebrew (t : TechnicalTerm) (l : List TechnicalTerm) :
    t ∈ sortByHebrew l ↔ t ∈ l := by
  induction l with
  | nil => simp [sortByHebrew]
  | cons a l ih =>
    rw [sortByHebrew, mem_insertSorted, ih, List.mem_cons]

theorem search_mem_iff (d : TechnicalDictionary) (query : SearchQuery)
    (t : TechnicalTerm) :
    t ∈ search d query ↔
      (∃ k, (k, t) ∈ d.terms) ∧ shouldInclude query t = true ∧
      categoryFilter query t = true ∧ contextFilter query t = true ∧
      tagFilter query t = true := by
  unfold search
  rw [mem_sortByHebrew, List.mem_filter, List.mem_filter, List.mem_filter,
    List.mem_dedup, List.mem_filter, List.mem_map]
  constructor
  · rintro ⟨⟨⟨⟨⟨a, ha, hat⟩, hinc⟩, hcat⟩, hctx⟩, htag⟩
    refine ⟨⟨a.1, ?_⟩, hinc, hcat, hctx, htag⟩
    rw [← hat]
    exact ha
  · rintro ⟨⟨k, hk⟩, hinc, hcat, hctx, htag⟩
    exact ⟨⟨⟨⟨⟨(k, t), hk, rfl⟩, hinc⟩, hcat⟩, hctx⟩, htag⟩

/-- C5 counterexample: the exact-match russian query `"TRUBA"` returns
the stored term whose russian field is `"truba"` — the comparison
lowercases both sides, so the claimed case-sensitive matching (which
would have to exclude this term) does not hold on the code. -/
theorem search_case_sensitivity_counterexample :
    caseStored ∈ search caseDict caseQuery ∧
    caseQuery.exact_match = true ∧
    caseQuery.include_synonyms = false ∧
    caseStored.russian ≠ caseQuery.text := by
  decide

/-- C5 amended: a term is included in `search` iff it is stored in the
term map, its primary field for the query language (`hebrew` for
`"he"`, `russian` for `"ru"`) — or, when `include_synonyms` is set, any
entry of the corresponding synonym list — equals the query text
(exact-match mode) or contains it as a substring (default mode) under
case-INSENSITIVE comparison (both sides are lowercased), and it passes
the category-inclusion, context-inclusion and tag-superset (AND)
filters when present. -/
theorem search_characterization (d : TechnicalDictionary)
    (query : SearchQuery) (t : TechnicalTerm) :
    t ∈ search d query ↔
      (∃ k, (k, t) ∈ d.terms) ∧ specTextMatch query t ∧
        specFilters query t := by
  rw [search_mem_iff, shouldInclude_iff, categoryFilter_iff,
    contextFilter_iff, tagFilter_iff]
  unfold specFilters
  constructor
  · rintro ⟨hmem, hm, h1, h2, h3⟩
    exact ⟨hmem, hm, h1, h2, h3⟩
  · rintro ⟨hmem, hm, h1, h2, h3⟩
    exact ⟨hmem, hm, h1, h2, h3⟩

end RustoHebvera
